import Mathlib

/-!
Verification development for the LegalTTSFilter repository.

The Python sources are shallowly embedded over `List Char`:
`src/citation_filter.py` (citation span rewriting and cleanup) and
`src/tts_preparator.py` (digit normalization, word segmentation and the
lexicon filter).  The external citation-detection oracle (the `eyecite`
library) is modelled as an input parameter: every function that consumes
its output is parametrized by the list of oracle records, exactly as the
spec treats the oracle as an external interface.
-/

namespace LegalTTS

/-- Python `\s` on the ASCII range: the whitespace class used by the
`re` patterns in the sources. -/
def pySpace (c : Char) : Bool :=
  c = ' ' || c = '\t' || c = '\n' || c = '\r' || c = '\x0b' || c = '\x0c'

/-- Drop the leading run of `\s` characters (helper for the scanners that
model greedy `\s*` in the cleanup regexes). -/
def dropSpaces : List Char → List Char
  | [] => []
  | c :: rest => if pySpace c then dropSpaces rest else c :: rest

theorem dropSpaces_length_le (l : List Char) : (dropSpaces l).length ≤ l.length := by
  induction l with
  | nil => simp [dropSpaces]
  | cons c rest ih =>
    simp only [dropSpaces]
    split
    · exact Nat.le_trans ih (Nat.le_succ _)
    · simp

/-- `re.sub(r'\s{2,}', ' ', s)`: each maximal whitespace run of length at
least two is replaced by a single space (`citation_filter.py:221`). -/
def collapseWs : List Char → List Char
  | [] => []
  | [c] => [c]
  | c :: d :: rest =>
    if pySpace c && pySpace d then ' ' :: collapseWs (dropSpaces rest)
    else c :: collapseWs (d :: rest)
termination_by l => l.length
decreasing_by
  · have := dropSpaces_length_le rest; simp; omega
  · simp

/-- `re.sub(r',\s*,', ',', s)` (`citation_filter.py:223`): a comma,
optional whitespace and a second comma collapse to one comma; scanning
resumes after the match. -/
def collapseCommas : List Char → List Char
  | [] => []
  | c :: rest =>
    if c = ',' then
      match h : dropSpaces rest with
      | d :: rest2 =>
        if d = ',' then ',' :: collapseCommas rest2 else c :: collapseCommas rest
      | [] => c :: collapseCommas rest
    else c :: collapseCommas rest
termination_by l => l.length
decreasing_by
  · have h1 := dropSpaces_length_le rest
    rw [h] at h1
    simp at h1 ⊢
    omega
  · simp
  · simp
  · simp

/-- `re.sub(r'\.\s*\.', '.', s)` (`citation_filter.py:224`). -/
def collapsePeriods : List Char → List Char
  | [] => []
  | c :: rest =>
    if c = '.' then
      match h : dropSpaces rest with
      | d :: rest2 =>
        if d = '.' then '.' :: collapsePeriods rest2 else c :: collapsePeriods rest
      | [] => c :: collapsePeriods rest
    else c :: collapsePeriods rest
termination_by l => l.length
decreasing_by
  · have h1 := dropSpaces_length_le rest
    rw [h] at h1
    simp at h1 ⊢
    omega
  · simp
  · simp
  · simp

/-- `re.sub(r'\(\s*\)', '', s)` (`citation_filter.py:226`): an empty pair
of parentheses (possibly holding whitespace) is deleted. -/
def collapseParens : List Char → List Char
  | [] => []
  | c :: rest =>
    if c = '(' then
      match h : dropSpaces rest with
      | d :: rest2 =>
        if d = ')' then collapseParens rest2 else c :: collapseParens rest
      | [] => c :: collapseParens rest
    else c :: collapseParens rest
termination_by l => l.length
decreasing_by
  · have h1 := dropSpaces_length_le rest
    rw [h] at h1
    simp at h1 ⊢
    omega
  · simp
  · simp
  · simp

/-- `re.sub(r'\[\s*\]', '', s)` (`citation_filter.py:227`). -/
def collapseBrackets : List Char → List Char
  | [] => []
  | c :: rest =>
    if c = '[' then
      match h : dropSpaces rest with
      | d :: rest2 =>
        if d = ']' then collapseBrackets rest2 else c :: collapseBrackets rest
      | [] => c :: collapseBrackets rest
    else c :: collapseBrackets rest
termination_by l => l.length
decreasing_by
  · have h1 := dropSpaces_length_le rest
    rw [h] at h1
    simp at h1 ⊢
    omega
  · simp
  · simp
  · simp

/-- The cleanup block of `filter_citations`
(`citation_filter.py:221`–`227`): the five `re.sub` passes applied in
source order. -/
def cleanup (l : List Char) : List Char :=
  collapseBrackets (collapseParens (collapsePeriods (collapseCommas (collapseWs l))))

/-! ## Citation data model (`identify_citations` output dictionaries) -/

/-- One element of the list produced by `identify_citations`
(`citation_filter.py:87`–`94`).  `span` holds the citation's character
offsets, `case_name_span` the offsets of the heuristically detected case
name in the text preceding the citation (`None` when no pattern matched). -/
structure CitationEntry where
  span : Nat × Nat
  ctext : List Char
  ctype : String
  case_name : Option (List Char)
  case_name_span : Option (Nat × Nat)
deriving Repr, DecidableEq

/-- Stable insertion step for the descending sort used below. -/
def insertDesc (x : CitationEntry) : List CitationEntry → List CitationEntry
  | [] => [x]
  | y :: ys => if x.span.1 < y.span.1 then y :: insertDesc x ys else x :: y :: ys

/-- `citations.sort(key=lambda c: c["span"][0], reverse=True)`
(`citation_filter.py:183`): stable sort by span start, descending. -/
def sortSpansDesc : List CitationEntry → List CitationEntry
  | [] => []
  | x :: xs => insertDesc x (sortSpansDesc xs)

/-- The exception raised by `filter_citations` on an unknown strategy
(Python `ValueError`). -/
inductive PyExn where
  | valueError (msg : String)
deriving Repr, DecidableEq

/-- `valid_strategies` (`citation_filter.py:173`). -/
def validStrategies : List String := ["remove", "replace", "remove_with_names", "names_only"]

/-- The message built by the f-string at `citation_filter.py:175`. -/
def invalidStrategyMsg (strategy : String) : String :=
  "Invalid strategy \x27" ++ strategy ++
    "\x27. Valid options are: remove, replace, remove_with_names, names_only"

/-- Body of the per-citation loop of `filter_citations`
(`citation_filter.py:188`–`217`): one strategy-dependent edit of the
current working string. -/
def applyStrategy (strategy : String) (placeholder : List Char)
    (result : List Char) (c : CitationEntry) : List Char :=
  let cs := c.span.1
  let ce := c.span.2
  if strategy = "remove" then
    result.take cs ++ result.drop ce
  else if strategy = "replace" then
    result.take cs ++ placeholder ++ result.drop ce
  else if strategy = "remove_with_names" then
    match c.case_name_span with
    | some (ns, ne) =>
      let r1 := result.take cs ++ result.drop ce
      r1.take ns ++ r1.drop ne
    | none => result.take cs ++ result.drop ce
  else if strategy = "names_only" then
    match c.case_name_span with
    | some (ns, ne) => result.take ns ++ result.drop ne
    | none => result
  else result

/-- `filter_citations(text, strategy, placeholder)`
(`citation_filter.py:149`–`229`), parametrized by the citation entries
that `identify_citations` would return for `text` (the citation oracle is
external).  Mirrors the source: empty-input check first, then strategy
validation, then the reverse-sorted edit loop, then the cleanup passes. -/
def filter_citations (citations : List CitationEntry) (text : List Char)
    (strategy : String) (placeholder : List Char) : Except PyExn (List Char) :=
  if text = [] then .ok []
  else if strategy ∈ validStrategies then
    .ok (cleanup ((sortSpansDesc citations).foldl (applyStrategy strategy placeholder) text))
  else .error (.valueError (invalidStrategyMsg strategy))

end LegalTTS

namespace LegalTTS

/-- **C1** (counterexample): at the concrete input `text = ""`,
`strategy = "bogus"`, `filter_citations` does *not* raise the
`InvalidStrategy` error: the empty-input check at
`citation_filter.py:169` returns `""` before strategy validation runs,
refuting the claim's "for every input text". -/
theorem C1_counterexample : filter_citations [] [] "bogus" [] = .ok [] := rfl

/-- **C1** (amended): for every *nonempty* input text and every strategy
string outside the four valid ones, `filter_citations` raises the
`InvalidStrategy` validation error (a `ValueError` with the source's
message) and no edit of the text is performed — the error is returned
before any mutation. -/
theorem C1_invalid_strategy_rejected (citations : List CitationEntry) (text : List Char)
    (strategy : String) (placeholder : List Char) (h1 : text ≠ [])
    (h2 : strategy ∉ validStrategies) :
    filter_citations citations text strategy placeholder =
      .error (.valueError (invalidStrategyMsg strategy)) := by
  unfold filter_citations
  rw [if_neg h1, if_neg (by simpa using h2)]

/-- **C1** witness: the amended theorem applied at the concrete input
`text = "a"`, `strategy = "bogus"`. -/
theorem C1_witness :
    (['a'] : List Char) ≠ [] ∧ "bogus" ∉ validStrategies ∧
      filter_citations [] ['a'] "bogus" [] =
        .error (.valueError (invalidStrategyMsg "bogus")) :=
  ⟨by decide, by decide, C1_invalid_strategy_rejected [] ['a'] "bogus" [] (by decide) (by decide)⟩

/-- **C8**: `filter_citations` on the empty string returns the empty
string for *every* strategy argument (valid or not) and every citation
list: the empty-input check at `citation_filter.py:169` precedes strategy
validation, so no `InvalidStrategy` error is raised for empty input. -/
theorem C8_empty_input_short_circuits (citations : List CitationEntry)
    (strategy : String) (placeholder : List Char) :
    filter_citations citations [] strategy placeholder = .ok [] := rfl

end LegalTTS

namespace LegalTTS

/-! ## C4: idempotence of the cleanup pass -/

/-- No two adjacent whitespace characters (the shape `collapseWs` leaves
behind). -/
def noTwoWs : List Char → Bool
  | c :: d :: rest => (!(pySpace c && pySpace d)) && noTwoWs (d :: rest)
  | _ => true

theorem dropSpaces_head (l : List Char) :
    dropSpaces l = [] ∨ ∃ e r, dropSpaces l = e :: r ∧ pySpace e = false := by
  induction l with
  | nil => left; rfl
  | cons c rest ih =>
    by_cases h : pySpace c
    · simpa [dropSpaces, h] using ih
    · right
      refine ⟨c, rest, by simp [dropSpaces, h], by simp [h]⟩

theorem collapseWs_head (d : Char) (r : List Char) :
    (collapseWs (d :: r)).head? = some d ∨
      ((collapseWs (d :: r)).head? = some ' ' ∧ pySpace d = true) := by
  match r with
  | [] => left; simp [collapseWs]
  | e :: r' =>
    rw [collapseWs]
    by_cases h : (pySpace d && pySpace e) = true
    · right
      rw [if_pos h]
      simp only [Bool.and_eq_true] at h
      exact ⟨rfl, h.1⟩
    · left; rw [if_neg h]; rfl

theorem noTwoWs_collapseWs (s : List Char) : noTwoWs (collapseWs s) = true := by
  induction s using collapseWs.induct with
  | case1 => simp [collapseWs, noTwoWs]
  | case2 c => simp [collapseWs, noTwoWs]
  | case3 c d rest h ih =>
    rw [collapseWs, if_pos h]
    rcases dropSpaces_head rest with h0 | ⟨e, r, he, hws⟩
    · rw [h0]; simp [collapseWs, noTwoWs]
    · rw [he] at ih ⊢
      rcases collapseWs_head e r with hh | ⟨_, hcon⟩
      · cases hcw : collapseWs (e :: r) with
        | nil => simp [noTwoWs]
        | cons x xs =>
          rw [hcw] at hh ih
          simp only [List.head?_cons, Option.some.injEq] at hh
          subst hh
          simp [noTwoWs, hws, ih]
      · rw [hws] at hcon
        exact absurd hcon (by simp)
  | case4 c d rest h ih =>
    rw [collapseWs, if_neg h]
    have hne : collapseWs (d :: rest) ≠ [] := by
      rcases collapseWs_head d rest with hh | ⟨hh, _⟩ <;>
        (intro hx; rw [hx] at hh; simp at hh)
    cases hcw : collapseWs (d :: rest) with
    | nil => exact absurd hcw hne
    | cons x xs =>
      rw [hcw] at ih
      have hx : ¬ (pySpace c && pySpace x) = true := by
        rcases collapseWs_head d rest with hh | ⟨hh, hws⟩ <;> rw [hcw] at hh <;>
          simp only [List.head?_cons, Option.some.injEq] at hh
        · subst hh; exact h
        · subst hh
          intro hcx
          simp only [Bool.and_eq_true] at hcx
          exact h (by simp [hcx.1, hws])
      simp only [noTwoWs, ih, Bool.and_eq_true, Bool.not_eq_true', Bool.and_eq_false_iff,
        Bool.and_eq_true, and_true]
      rcases Bool.eq_false_or_eq_true (pySpace c) with hc | hc
      · right
        rcases Bool.eq_false_or_eq_true (pySpace x) with hxx | hxx
        · exact absurd (by simp [hc, hxx]) hx
        · exact hxx
      · left; exact hc

theorem collapseWs_of_noTwoWs (s : List Char) (h : noTwoWs s = true) : collapseWs s = s := by
  induction s using collapseWs.induct with
  | case1 => simp [collapseWs]
  | case2 c => simp [collapseWs]
  | case3 c d rest hcd ih =>
    exfalso
    simp [noTwoWs, hcd] at h
  | case4 c d rest hcd ih =>
    rw [collapseWs, if_neg hcd]
    simp only [noTwoWs, Bool.and_eq_true] at h
    rw [ih h.2]

/-- **C4** (counterexample): the full cleanup pass is *not* idempotent:
on `",,,"` the comma pass rewrites the first `",,"` to `","` and resumes
scanning after the match, leaving `",,"`; a second application shrinks it
again to `","`. -/
theorem C4_counterexample :
    cleanup (cleanup [',', ',', ',']) ≠ cleanup [',', ',', ','] := by
  have h1 : cleanup [',', ',', ','] = [',', ','] := by
    simp [cleanup, collapseWs, collapseCommas, collapsePeriods, collapseParens,
      collapseBrackets, dropSpaces, pySpace]
  have h2 : cleanup [',', ','] = [','] := by
    simp [cleanup, collapseWs, collapseCommas, collapsePeriods, collapseParens,
      collapseBrackets, dropSpaces, pySpace]
  rw [h1, h2]
  simp

/-- **C4** (amended): only the whitespace-collapsing component of the
cleanup pass is idempotent: for every string, applying the
`\s{2,} -> " "` pass twice yields the same result as applying it once.
The full cleanup pass (with the comma/period/bracket rewrites) is not
idempotent in general, as `C4_counterexample` shows. -/
theorem C4_ws_collapse_idem (s : List Char) :
    collapseWs (collapseWs s) = collapseWs s :=
  collapseWs_of_noTwoWs _ (noTwoWs_collapseWs s)

end LegalTTS

namespace LegalTTS

/-! ## C2 and C9: the span-removal loop -/

/-- Index `i` lies inside one of the half-open spans. -/
def coveredBy (spans : List (Nat × Nat)) (i : Nat) : Bool :=
  spans.any (fun sp => sp.1 ≤ i && i < sp.2)

/-- The subsequence of characters whose (absolute) index, starting at `i`,
is not covered by any span. -/
def eraseFrom (spans : List (Nat × Nat)) : Nat → List Char → List Char
  | _, [] => []
  | i, c :: rest =>
    if coveredBy spans i then eraseFrom spans (i + 1) rest
    else c :: eraseFrom spans (i + 1) rest

/-- Specification-side description of span removal: the concatenation of
the segments of `text` lying outside every span. -/
def eraseSpans (text : List Char) (spans : List (Nat × Nat)) : List Char :=
  eraseFrom spans 0 text

theorem eraseFrom_append (spans : List (Nat × Nat)) (i : Nat) (a b : List Char) :
    eraseFrom spans i (a ++ b) =
      eraseFrom spans i a ++ eraseFrom spans (i + a.length) b := by
  induction a generalizing i with
  | nil => simp [eraseFrom]
  | cons c a ih =>
    have e1 : ((c :: a : List Char) ++ b) = c :: (a ++ b) := rfl
    rw [e1, eraseFrom, eraseFrom, ih]
    simp only [List.length_cons]
    rw [show i + 1 + a.length = i + (a.length + 1) from by omega]
    split <;> simp

theorem eraseFrom_of_uncovered (spans : List (Nat × Nat)) (i : Nat) (l : List Char)
    (h : ∀ j, i ≤ j → j < i + l.length → coveredBy spans j = false) :
    eraseFrom spans i l = l := by
  induction l generalizing i with
  | nil => rfl
  | cons c l ih =>
    rw [eraseFrom, h i (Nat.le_refl i) (by simp)]
    simp only [if_neg (by simp : ¬ (false = true))]
    rw [ih (i + 1) (fun j hj1 hj2 => h j (by omega) (by simp; omega))]

theorem eraseFrom_of_covered (spans : List (Nat × Nat)) (i : Nat) (l : List Char)
    (h : ∀ j, i ≤ j → j < i + l.length → coveredBy spans j = true) :
    eraseFrom spans i l = [] := by
  induction l generalizing i with
  | nil => rfl
  | cons c l ih =>
    rw [eraseFrom, h i (Nat.le_refl i) (by simp), if_pos rfl]
    exact ih (i + 1) (fun j hj1 hj2 => h j (by omega) (by simp; omega))

theorem eraseFrom_congr (A B : List (Nat × Nat)) (i : Nat) (l : List Char)
    (h : ∀ j, i ≤ j → j < i + l.length → coveredBy A j = coveredBy B j) :
    eraseFrom A i l = eraseFrom B i l := by
  induction l generalizing i with
  | nil => rfl
  | cons c l ih =>
    rw [eraseFrom, eraseFrom, h i (Nat.le_refl i) (by simp),
      ih (i + 1) (fun j hj1 hj2 => h j (by omega) (by simp; omega))]

theorem insertDesc_perm (x : CitationEntry) (l : List CitationEntry) :
    (insertDesc x l).Perm (x :: l) := by
  induction l with
  | nil => exact List.Perm.refl _
  | cons y ys ih =>
    rw [insertDesc]
    split
    · exact (List.Perm.cons y ih).trans (List.Perm.swap x y ys)
    · exact List.Perm.refl _

theorem sortSpansDesc_perm (l : List CitationEntry) : (sortSpansDesc l).Perm l := by
  induction l with
  | nil => exact List.Perm.refl _
  | cons x xs ih =>
    exact (insertDesc_perm x (sortSpansDesc xs)).trans (List.Perm.cons x ih)

/-- Descending order on span starts (the sort key). -/
def keyGE (x y : CitationEntry) : Prop := y.span.1 ≤ x.span.1

theorem insertDesc_sorted (x : CitationEntry) (l : List CitationEntry)
    (h : l.Pairwise keyGE) : (insertDesc x l).Pairwise keyGE := by
  induction l with
  | nil => simp [insertDesc, keyGE]
  | cons y ys ih =>
    rw [insertDesc]
    obtain ⟨hy, hys⟩ := List.pairwise_cons.mp h
    by_cases hxy : x.span.1 < y.span.1
    · rw [if_pos hxy]
      refine List.pairwise_cons.mpr ⟨?_, ih hys⟩
      intro z hz
      rcases List.mem_cons.mp ((insertDesc_perm x ys).mem_iff.mp hz) with hz1 | hz1
      · subst hz1; exact Nat.le_of_lt hxy
      · exact hy z hz1
    · rw [if_neg hxy]
      refine List.pairwise_cons.mpr ⟨?_, h⟩
      intro z hz
      rcases List.mem_cons.mp hz with h1 | h1
      · subst h1; exact Nat.le_of_not_lt hxy
      · exact Nat.le_trans (hy z h1) (Nat.le_of_not_lt hxy)

theorem sortSpansDesc_sorted (l : List CitationEntry) :
    (sortSpansDesc l).Pairwise keyGE := by
  induction l with
  | nil => constructor
  | cons x xs ih => exact insertDesc_sorted x _ ih

/-- Disjointness of two half-open spans. -/
def SpansDisj (x y : Nat × Nat) : Prop := x.2 ≤ y.1 ∨ y.2 ≤ x.1

theorem SpansDisj.symm {x y : Nat × Nat} (h : SpansDisj x y) : SpansDisj y x :=
  h.elim .inr .inl

/-- On a list sorted descending by start, disjoint valid spans satisfy:
every later span ends at or before every earlier span starts. -/
theorem pairwise_sep (l : List CitationEntry)
    (hs : l.Pairwise keyGE)
    (hd : l.Pairwise (fun x y => SpansDisj x.span y.span))
    (hv : ∀ c ∈ l, c.span.1 < c.span.2) :
    l.Pairwise (fun x y => y.span.2 ≤ x.span.1) := by
  induction l with
  | nil => constructor
  | cons c l ih =>
    obtain ⟨hc1, hs2⟩ := List.pairwise_cons.mp hs
    obtain ⟨hc2, hd2⟩ := List.pairwise_cons.mp hd
    refine List.pairwise_cons.mpr ⟨?_, ih hs2 hd2 (fun x hx => hv x (List.mem_cons_of_mem c hx))⟩
    intro y hy
    rcases hc2 y hy with h1 | h1
    · exact absurd (Nat.lt_of_lt_of_le (hv c (List.mem_cons_self c l)) (Nat.le_trans h1 (hc1 y hy)))
        (Nat.lt_irrefl _)
    · exact h1

theorem applyStrategy_remove (ph r : List Char) (c : CitationEntry) :
    applyStrategy "remove" ph r c = r.take c.span.1 ++ r.drop c.span.2 := by
  simp [applyStrategy]

theorem removeFold_append (l : List CitationEntry) (ph : List Char) :
    ∀ (a b : List Char),
    (∀ c ∈ l, c.span.1 < c.span.2 ∧ c.span.2 ≤ a.length) →
    l.Pairwise (fun x y => y.span.2 ≤ x.span.1) →
    l.foldl (applyStrategy "remove" ph) (a ++ b) =
      l.foldl (applyStrategy "remove" ph) a ++ b := by
  induction l with
  | nil => intro a b _ _; rfl
  | cons c l ih =>
    intro a b hval hp
    obtain ⟨hc, hl⟩ := List.pairwise_cons.mp hp
    obtain ⟨hc1, hc2⟩ := hval c (List.mem_cons_self c l)
    have hs_le : c.span.1 ≤ a.length := Nat.le_trans (Nat.le_of_lt hc1) hc2
    rw [List.foldl_cons, List.foldl_cons, applyStrategy_remove, applyStrategy_remove,
      List.take_append_of_le_length hs_le, List.drop_append_of_le_length hc2,
      ← List.append_assoc]
    rw [ih (a.take c.span.1 ++ a.drop c.span.2) b ?_ hl]
    intro d hd
    refine ⟨(hval d (List.mem_cons_of_mem c hd)).1, ?_⟩
    have h3 : d.span.2 ≤ c.span.1 := hc d hd
    have h4 : (a.take c.span.1).length = c.span.1 := by
      simp [Nat.min_eq_left hs_le]
    simp only [List.length_append, h4]
    omega

theorem erase_peel (text : List Char) (s e : Nat) (spans : List (Nat × Nat))
    (hse : s < e) (hlen : e ≤ text.length) (hsp : ∀ sp ∈ spans, sp.2 ≤ s) :
    eraseSpans text ((s, e) :: spans) =
      eraseSpans (text.take s) spans ++ text.drop e := by
  unfold eraseSpans
  have hsl : s ≤ e := Nat.le_of_lt hse
  conv_lhs => rw [← List.take_append_drop e text]
  rw [eraseFrom_append]
  have hlen1 : (text.take e).length = e := by simp [Nat.min_eq_left hlen]
  rw [hlen1]
  have h2 : eraseFrom ((s, e) :: spans) (0 + e) (text.drop e) = text.drop e := by
    apply eraseFrom_of_uncovered
    intro j hj _
    simp only [coveredBy, List.any_cons, Bool.or_eq_false_iff]
    constructor
    · simp only [Bool.and_eq_false_iff]
      right
      simp
      omega
    · simp only [List.any_eq_false]
      intro sp hsp2
      have := hsp sp hsp2
      simp
      intro h5
      omega
  rw [h2]
  conv_lhs => rw [← List.take_append_drop s (text.take e)]
  rw [eraseFrom_append]
  have hlen2 : ((text.take e).take s).length = s := by
    simp
    omega
  rw [hlen2]
  have h3 : eraseFrom ((s, e) :: spans) (0 + s) ((text.take e).drop s) = [] := by
    apply eraseFrom_of_covered
    intro j hj1 hj2
    simp only [List.length_drop, hlen1] at hj2
    simp only [coveredBy, List.any_cons, Bool.or_eq_true]
    left
    simp
    omega
  rw [h3]
  have h4 : (text.take e).take s = text.take s := by
    rw [List.take_take, Nat.min_eq_left hsl]
  rw [h4]
  have h5 : eraseFrom ((s, e) :: spans) 0 (text.take s) = eraseFrom spans 0 (text.take s) := by
    apply eraseFrom_congr
    intro j _ hj2
    have hj3 : j < s := by
      have : (text.take s).length ≤ s := by simp
      omega
    simp only [coveredBy, List.any_cons]
    have : ((s, e).1 ≤ j && j < (s, e).2) = false := by
      simp
      omega
    rw [this, Bool.false_or]
  rw [h5]
  simp

theorem removeFold_eq_erase (l : List CitationEntry) (ph : List Char) :
    ∀ (text : List Char),
    (∀ c ∈ l, c.span.1 < c.span.2 ∧ c.span.2 ≤ text.length) →
    l.Pairwise (fun x y => y.span.2 ≤ x.span.1) →
    l.foldl (applyStrategy "remove" ph) text = eraseSpans text (l.map (·.span)) := by
  induction l with
  | nil =>
    intro text _ _
    rw [List.foldl_nil, List.map_nil]
    exact (eraseFrom_of_uncovered [] 0 text (fun j _ _ => rfl)).symm
  | cons c l ih =>
    intro text hval hp
    obtain ⟨hc, hl⟩ := List.pairwise_cons.mp hp
    obtain ⟨hc1, hc2⟩ := hval c (List.mem_cons_self c l)
    have hs_le : c.span.1 ≤ text.length := Nat.le_trans (Nat.le_of_lt hc1) hc2
    have htk : (text.take c.span.1).length = c.span.1 := by simp [Nat.min_eq_left hs_le]
    rw [List.foldl_cons, applyStrategy_remove]
    rw [removeFold_append l ph (text.take c.span.1) (text.drop c.span.2) ?hv hl]
    case hv =>
      intro d hd
      exact ⟨(hval d (List.mem_cons_of_mem c hd)).1, by rw [htk]; exact hc d hd⟩
    rw [ih (text.take c.span.1) ?hv2 hl]
    case hv2 =>
      intro d hd
      exact ⟨(hval d (List.mem_cons_of_mem c hd)).1, by rw [htk]; exact hc d hd⟩
    rw [List.map_cons]
    rw [erase_peel text c.span.1 c.span.2 (l.map (·.span)) hc1 hc2 ?_]
    intro sp hsp
    obtain ⟨d, hd, hds⟩ := List.mem_map.mp hsp
    rw [← hds]
    exact hc d hd

end LegalTTS

namespace LegalTTS

/-- Smallest span start (defaulting to `dflt` for the empty list). -/
def minStart (spans : List (Nat × Nat)) (dflt : Nat) : Nat :=
  spans.foldr (fun sp m => min sp.1 m) dflt

/-- Largest span end (0 for the empty list). -/
def maxEnd (spans : List (Nat × Nat)) : Nat :=
  spans.foldr (fun sp m => max sp.2 m) 0

theorem minStart_le {spans : List (Nat × Nat)} {dflt : Nat} (sp : Nat × Nat)
    (h : sp ∈ spans) : minStart spans dflt ≤ sp.1 := by
  induction spans with
  | nil => cases h
  | cons q l ih =>
    rcases List.mem_cons.mp h with h1 | h1
    · subst h1; exact Nat.min_le_left _ _
    · exact Nat.le_trans (Nat.min_le_right _ _) (ih h1)

theorem le_maxEnd {spans : List (Nat × Nat)} (sp : Nat × Nat)
    (h : sp ∈ spans) : sp.2 ≤ maxEnd spans := by
  induction spans with
  | nil => cases h
  | cons q l ih =>
    rcases List.mem_cons.mp h with h1 | h1
    · subst h1; exact Nat.le_max_left _ _
    · exact Nat.le_trans (ih h1) (Nat.le_max_right _ _)

theorem maxEnd_le {spans : List (Nat × Nat)} {n : Nat}
    (h : ∀ sp ∈ spans, sp.2 ≤ n) : maxEnd spans ≤ n := by
  induction spans with
  | nil => exact Nat.zero_le n
  | cons q l ih =>
    simp only [maxEnd, List.foldr_cons]
    exact Nat.max_le.mpr ⟨h q (List.mem_cons_self q l),
      ih (fun sp hsp => h sp (List.mem_cons_of_mem q hsp))⟩

/-- Every character strictly outside `[minStart, maxEnd)` survives span
removal verbatim: the erased text decomposes as the untouched head, some
middle, and the untouched tail. -/
theorem erase_outside (text : List Char) (spans : List (Nat × Nat))
    (hval : ∀ sp ∈ spans, sp.1 < sp.2 ∧ sp.2 ≤ text.length) (hne : spans ≠ []) :
    ∃ mid, eraseSpans text spans =
      text.take (minStart spans text.length) ++ mid ++ text.drop (maxEnd spans) := by
  obtain ⟨sp0, hsp0⟩ := List.exists_mem_of_ne_nil spans hne
  have hmM : minStart spans text.length ≤ maxEnd spans :=
    Nat.le_trans (minStart_le sp0 hsp0)
      (Nat.le_trans (Nat.le_of_lt (hval sp0 hsp0).1) (le_maxEnd sp0 hsp0))
  have hM : maxEnd spans ≤ text.length := maxEnd_le (fun sp h => (hval sp h).2)
  set m := minStart spans text.length with hm
  set M := maxEnd spans with hMdef
  refine ⟨eraseFrom spans m ((text.take M).drop m), ?_⟩
  unfold eraseSpans
  conv_lhs => rw [← List.take_append_drop M text]
  rw [eraseFrom_append]
  have hlen1 : (text.take M).length = M := by simp [Nat.min_eq_left hM]
  rw [hlen1]
  have h2 : eraseFrom spans (0 + M) (text.drop M) = text.drop M := by
    apply eraseFrom_of_uncovered
    intro j hj _
    simp only [coveredBy, List.any_eq_false]
    intro sp hsp2
    have := le_maxEnd sp hsp2
    simp
    omega
  rw [h2]
  conv_lhs => rw [← List.take_append_drop m (text.take M)]
  rw [eraseFrom_append]
  have hlen2 : ((text.take M).take m).length = m := by
    simp
    omega
  rw [hlen2]
  have h4 : (text.take M).take m = text.take m := by
    rw [List.take_take, Nat.min_eq_left hmM]
  rw [h4]
  have h5 : eraseFrom spans 0 (text.take m) = text.take m := by
    apply eraseFrom_of_uncovered
    intro j _ hj2
    simp only [coveredBy, List.any_eq_false]
    intro sp hsp2
    have := @minStart_le _ text.length sp hsp2
    have hj3 : j < m := by
      have : (text.take m).length ≤ m := by simp
      omega
    simp
    omega
  rw [h5]
  simp

/-- `coveredBy` only depends on the set of spans. -/
theorem coveredBy_perm {A B : List (Nat × Nat)} (h : A.Perm B) (i : Nat) :
    coveredBy A i = coveredBy B i := by
  unfold coveredBy
  rcases Bool.eq_false_or_eq_true (A.any (fun sp => sp.1 ≤ i && i < sp.2)) with hA | hA
  · rw [hA]
    obtain ⟨sp, hsp, hp⟩ := List.any_eq_true.mp hA
    exact (List.any_eq_true.mpr ⟨sp, h.mem_iff.mp hsp, hp⟩).symm
  · rw [hA]
    rcases Bool.eq_false_or_eq_true (B.any (fun sp => sp.1 ≤ i && i < sp.2)) with hB | hB
    · obtain ⟨sp, hsp, hp⟩ := List.any_eq_true.mp hB
      have hA2 : A.any (fun sp => sp.1 ≤ i && i < sp.2) = true :=
        List.any_eq_true.mpr ⟨sp, h.mem_iff.mpr hsp, hp⟩
      rw [hA2] at hA; cases hA
    · rw [hB]

theorem eraseSpans_perm {A B : List (Nat × Nat)} (h : A.Perm B) (text : List Char) :
    eraseSpans text A = eraseSpans text B :=
  eraseFrom_congr A B 0 text (fun j _ _ => coveredBy_perm h j)

/-- **C2** (counterexample): the claim as stated fails.  Take
`text = "XX  a"` with the single valid citation span `[0,1)`.  After
`filter_citations` with strategy `"remove"`: (i) the output still begins
with `"X"`, i.e. the original citation substring *does* appear at its
former offset range `[0,1)` (the second `X` shifts into it), and (ii)
the double space at offsets `2`–`3` — strictly outside
`[min start, max end) = [0,1)` — is collapsed by the cleanup pass, so
the text outside the interval is *not* preserved verbatim. -/
theorem C2_counterexample :
    filter_citations
        [⟨(0, 1), ['X'], "full", none, none⟩]
        ['X', 'X', ' ', ' ', 'a'] "remove" [] =
      .ok ['X', ' ', 'a'] ∧
    (['X', ' ', 'a'] : List Char).take 1 = ['X'] ∧
    ¬ (['X', ' ', ' ', 'a'] : List Char) <:+ (['X', ' ', 'a'] : List Char) := by
  refine ⟨?_, by decide, by decide⟩
  simp [filter_citations, validStrategies, sortSpansDesc, insertDesc, applyStrategy,
    cleanup, collapseWs, collapseCommas, collapsePeriods, collapseParens,
    collapseBrackets, dropSpaces, pySpace]

/-- **C2** (amended): for every text and every list of valid, pairwise
disjoint citation spans, `filter_citations` with strategy `"remove"`
returns the cleanup pass applied to exactly the concatenation of the
segments of `text` outside the spans (`eraseSpans`): before cleanup, no
character inside any span survives and every character strictly outside
`[min start, max end)` is preserved verbatim (the decomposition in the
second conjunct); the cleanup pass may then normalize whitespace and
punctuation anywhere. -/
theorem C2_remove_strategy (citations : List CitationEntry) (text ph : List Char)
    (hne : text ≠ [])
    (hval : ∀ c ∈ citations, c.span.1 < c.span.2 ∧ c.span.2 ≤ text.length)
    (hdisj : citations.Pairwise (fun x y => SpansDisj x.span y.span)) :
    filter_citations citations text "remove" ph =
      .ok (cleanup (eraseSpans text (citations.map (·.span)))) ∧
      (citations ≠ [] → ∃ mid,
        eraseSpans text (citations.map (·.span)) =
          text.take (minStart (citations.map (·.span)) text.length) ++ mid ++
            text.drop (maxEnd (citations.map (·.span)))) := by
  constructor
  · unfold filter_citations
    rw [if_neg hne, if_pos (by simp [validStrategies])]
    have hperm := sortSpansDesc_perm citations
    have hvs : ∀ c ∈ sortSpansDesc citations, c.span.1 < c.span.2 ∧ c.span.2 ≤ text.length :=
      fun c hc => hval c (hperm.mem_iff.mp hc)
    have hds : (sortSpansDesc citations).Pairwise (fun x y => SpansDisj x.span y.span) :=
      (List.Perm.pairwise_iff (fun h => h.symm) hperm).mpr hdisj
    have hsep := pairwise_sep _ (sortSpansDesc_sorted citations) hds (fun c hc => (hvs c hc).1)
    rw [removeFold_eq_erase _ ph text hvs hsep,
      eraseSpans_perm (List.Perm.map _ hperm) text]
  · intro hcne
    apply erase_outside
    · intro sp hsp
      obtain ⟨c, hc, rfl⟩ := List.mem_map.mp hsp
      exact hval c hc
    · simpa using hcne

/-- **C2** witness: the amended theorem applied at
`text = "abcd"` with the two disjoint spans `[1,2)` and `[3,4)`. -/
theorem C2_witness :
    ((['a', 'b', 'c', 'd'] : List Char) ≠ [] ∧
      (∀ c ∈ [(⟨(1, 2), ['b'], "full", none, none⟩ : CitationEntry),
              ⟨(3, 4), ['d'], "short", none, none⟩],
        c.span.1 < c.span.2 ∧ c.span.2 ≤ (['a', 'b', 'c', 'd'] : List Char).length)) ∧
    (filter_citations
        [⟨(1, 2), ['b'], "full", none, none⟩, ⟨(3, 4), ['d'], "short", none, none⟩]
        ['a', 'b', 'c', 'd'] "remove" [] =
      .ok (cleanup (eraseSpans ['a', 'b', 'c', 'd'] [(1, 2), (3, 4)])) ∧
      ([(⟨(1, 2), ['b'], "full", none, none⟩ : CitationEntry),
        ⟨(3, 4), ['d'], "short", none, none⟩] ≠ [] → ∃ mid,
        eraseSpans ['a', 'b', 'c', 'd'] [(1, 2), (3, 4)] =
          (['a', 'b', 'c', 'd'] : List Char).take (minStart [(1, 2), (3, 4)] 4) ++ mid ++
            (['a', 'b', 'c', 'd'] : List Char).drop (maxEnd [(1, 2), (3, 4)]))) :=
  ⟨⟨by decide, by decide⟩,
    C2_remove_strategy _ _ _ (by decide) (by decide)
      (by simp [SpansDisj])⟩

/-- Pointwise-equal fold steps give equal folds. -/
theorem foldl_congr_mem {α β : Type} (l : List α) (f g : β → α → β) :
    ∀ (b : β), (∀ c ∈ l, ∀ r, f r c = g r c) → l.foldl f b = l.foldl g b := by
  induction l with
  | nil => intro b _; rfl
  | cons c l ih =>
    intro b h
    rw [List.foldl_cons, List.foldl_cons, h c (List.mem_cons_self c l) b]
    exact ih _ (fun d hd r => h d (List.mem_cons_of_mem c hd) r)

/-- **C9**: when no identified citation carries a detected case name,
strategy `"remove_with_names"` takes the same per-citation branch as
`"remove"` (`citation_filter.py:209`–`211`), so `filter_citations`
returns exactly the same output under both strategies. -/
theorem C9_remove_with_names_eq_remove (citations : List CitationEntry)
    (text ph : List Char)
    (h : ∀ c ∈ citations, c.case_name_span = none) :
    filter_citations citations text "remove_with_names" ph =
      filter_citations citations text "remove" ph := by
  unfold filter_citations
  by_cases ht : text = []
  · rw [if_pos ht, if_pos ht]
  · rw [if_neg ht, if_neg ht,
      if_pos (by simp [validStrategies] : ("remove_with_names" : String) ∈ validStrategies),
      if_pos (by simp [validStrategies] : ("remove" : String) ∈ validStrategies)]
    have hfold : (sortSpansDesc citations).foldl (applyStrategy "remove_with_names" ph) text =
        (sortSpansDesc citations).foldl (applyStrategy "remove" ph) text := by
      apply foldl_congr_mem
      intro c hc r
      have hcn : c.case_name_span = none :=
        h c ((sortSpansDesc_perm citations).mem_iff.mp hc)
      simp [applyStrategy, hcn]
    rw [hfold]

/-- **C9** witness: the theorem applied at a concrete text and a
citation entry with no detected case name. -/
theorem C9_witness :
    (∀ c ∈ [(⟨(1, 2), ['b'], "full", none, none⟩ : CitationEntry)],
      c.case_name_span = none) ∧
    filter_citations [⟨(1, 2), ['b'], "full", none, none⟩] ['a', 'b', 'c']
        "remove_with_names" [] =
      filter_citations [⟨(1, 2), ['b'], "full", none, none⟩] ['a', 'b', 'c']
        "remove" [] :=
  ⟨by decide, C9_remove_with_names_eq_remove _ _ _ (by decide)⟩

end LegalTTS

namespace LegalTTS

/-! ## C6: the lexicon-filter token retention rules -/

/-- Python `\w` on the ASCII range. -/
def pyWordChar (c : Char) : Bool := c.isAlpha || c.isDigit || c = '_'

/-- A letter or digit. -/
def isAlnum (c : Char) : Bool := c.isAlpha || c.isDigit

/-- Python `pat in hay` (substring containment). -/
def containsStr (hay pat : List Char) : Bool :=
  match hay with
  | [] => pat.isEmpty
  | _ :: rest => pat.isPrefixOf hay || containsStr rest pat

/-- Worker for `pyReplace`: `skip` counts characters still belonging to the
last replaced occurrence. -/
def pyReplaceGo (old new : List Char) : Nat → List Char → List Char
  | _, [] => []
  | 0, c :: rest =>
    if !old.isEmpty && old.isPrefixOf (c :: rest) then
      new ++ pyReplaceGo old new (old.length - 1) rest
    else c :: pyReplaceGo old new 0 rest
  | skip + 1, _ :: rest => pyReplaceGo old new skip rest

/-- Python `s.replace(old, new)`: every non-overlapping occurrence of
`old`, scanning left to right, is replaced by `new` (callers never pass an
empty `old`). -/
def pyReplace (s old new : List Char) : List Char := pyReplaceGo old new 0 s

/-- Worker for `pySplitStr` (same scan as `pyReplaceGo`). -/
def pySplitGo (old : List Char) : Nat → List Char → List Char → List (List Char)
  | _, acc, [] => [acc.reverse]
  | 0, acc, c :: rest =>
    if !old.isEmpty && old.isPrefixOf (c :: rest) then
      acc.reverse :: pySplitGo old (old.length - 1) [] rest
    else pySplitGo old 0 (c :: acc) rest
  | skip + 1, acc, _ :: rest => pySplitGo old skip acc rest

/-- Python `s.split(old)`: the pieces of `s` between the non-overlapping
occurrences of `old`. -/
def pySplitStr (s old : List Char) : List (List Char) := pySplitGo old 0 [] s

/-- Python `sep.join(pieces)`. -/
def joinWith (sep : List Char) : List (List Char) → List Char
  | [] => []
  | [x] => x
  | x :: y :: rest => x ++ sep ++ joinWith sep (y :: rest)

-- sanity checks against Python semantics
example : pyReplace "aab".data "ab".data "b".data = "ab".data := by decide
example : pyReplace "a'b".data ['\''] [] = "ab".data := by decide
example : pySplitStr "xAByAB".data "AB".data = ["x".data, "y".data, []] := by decide

/-- The fixed legal-abbreviation allowlist (`tts_preparator.py:401`). -/
def abbrevSet : List (List Char) :=
  ["v", "vs", "etc", "ie", "eg", "co", "inc", "llc", "llp", "jr", "sr",
   "no", "id", "op"].map String.data

/-- The parenthesized contraction condition at `tts_preparator.py:376`–`384`:
Python `str.replace` deletes *every* occurrence of the given apostrophe
string anywhere in the lowercased token, not only a suffix. -/
def contractionHit (ws : List (List Char)) (token : List Char) : Bool :=
  let token_lower := token.map Char.toLower
  ws.contains (pyReplace token_lower ['\''] []) ||
  ws.contains (pyReplace token_lower ['\'', 's'] []) ||
  ws.contains (pyReplace token_lower ['\'', 't'] []) ||
  ws.contains (pyReplace token_lower ['\'', 'v', 'e'] []) ||
  ws.contains (pyReplace token_lower ['\'', 'r', 'e'] []) ||
  ws.contains (pyReplace token_lower ['\'', 'l', 'l'] []) ||
  ws.contains (pyReplace token_lower ['\'', 'd'] [])

/-- The hyphenated-word condition at `tts_preparator.py:389`–`391`:
every nonempty hyphen-delimited part, lowercased, is in the lexicon
(vacuously true when all parts are empty, as in Python `all`). -/
def hyphenRuleHit (ws : List (List Char)) (token : List Char) : Bool :=
  (token.splitOn '-').all (fun part => part.isEmpty || ws.contains (part.map Char.toLower))

/-- The per-token keep/drop decision of the `apply_dictionary_filter`
token loop (`tts_preparator.py:355`–`403`), with the word set as a
parameter (the dictionary is loaded from external sources). -/
def keepToken (ws : List (List Char)) (remove_digits : Bool) (token : List Char) : Bool :=
  -- `if token in '.,;:!?'` (Python substring test)
  if containsStr ".,;:!?".data token then true
  -- `if remove_digits and re.search(r'[0-9]', token)`
  else if remove_digits && token.any Char.isDigit then false
  -- `if len(token) > 20`
  else if token.length > 20 then false
  else
    let token_lower := token.map Char.toLower
    -- `if token_lower in word_set or token in word_set`
    if ws.contains token_lower || ws.contains token then true
    -- `if "'" in token and (...)`
    else if containsStr token ['\''] && contractionHit ws token then true
    -- `if "-" in token` and all parts known
    else if containsStr token ['-'] && hyphenRuleHit ws token then true
    -- `if len(token) == 1 and token.isalpha()`
    else if token.length = 1 && token.all Char.isAlpha then true
    -- `if token_lower in {...}` (legal abbreviations)
    else if abbrevSet.contains token_lower then true
    else false

/-- Formalization of the *spec wording* of retention rule (e) (spec
section 4.6), for comparison with the code: the token is kept when
stripping one of the suffixes `'s`, `'t`, `'ve`, `'re`, `'ll`, `'d`, or a
bare trailing apostrophe, from the (lowercased) token yields a lexicon
word. -/
def specRuleE (ws : List (List Char)) (token : List Char) : Bool :=
  let token_lower := token.map Char.toLower
  containsStr token ['\''] &&
    ([['\'', 's'], ['\'', 't'], ['\'', 'v', 'e'], ['\'', 'r', 'e'],
      ['\'', 'l', 'l'], ['\'', 'd'], ['\'']].any
      (fun suf => suf.isSuffixOf token_lower &&
        ws.contains (token_lower.take (token_lower.length - suf.length))))

-- sanity: the code keeps "a'b" over lexicon {"ab"}; the spec rule does not
example : keepToken [['a', 'b']] false ['a', '\'', 'b'] = true := by decide
example : specRuleE [['a', 'b']] ['a', '\'', 'b'] = false := by decide
example : keepToken ["can".data] false "can\x27t".data = true := by decide

theorem containsStr_single (s : List Char) (c : Char) (h : containsStr s [c] = true) :
    c ∈ s := by
  induction s with
  | nil => simp [containsStr] at h
  | cons x rest ih =>
    rw [containsStr, Bool.or_eq_true] at h
    rcases h with h | h
    · simp [List.isPrefixOf] at h
      simp [h]
    · exact List.mem_cons_of_mem x (ih h)

/-- **C6** (counterexample): over the lexicon `{"ab"}`, the token `"a'b"`
is *kept* by the code (deleting every apostrophe yields the lexicon word
`"ab"`), although no earlier rule applies to it and the spec's rule —
stripping one of the listed *suffixes* or a bare trailing apostrophe —
yields no lexicon hit.  The code's test is a replace-all anywhere in the
token, not a suffix strip. -/
theorem C6_counterexample :
    keepToken [['a', 'b']] false ['a', '\'', 'b'] = true ∧
    containsStr ".,;:!?".data ['a', '\'', 'b'] = false ∧
    (false && (['a', '\'', 'b'] : List Char).any Char.isDigit) = false ∧
    (['a', '\'', 'b'] : List Char).length ≤ 20 ∧
    (([['a', 'b']] : List (List Char)).contains (['a', '\'', 'b'].map Char.toLower) ||
      ([['a', 'b']] : List (List Char)).contains ['a', '\'', 'b']) = false ∧
    specRuleE [['a', 'b']] ['a', '\'', 'b'] = false := by decide

/-- **C6** (amended): a token that contains an apostrophe and is not
decided by an earlier rule is kept exactly when deleting *every
occurrence* (anywhere in the lowercased token, not only as a suffix) of
the apostrophe or of one of `'s`, `'t`, `'ve`, `'re`, `'ll`, `'d` yields
a lexicon word, or when the later hyphen rule keeps it (every nonempty
hyphen-delimited part is a lexicon word). -/
theorem C6_contraction_replace_all (ws : List (List Char)) (rd : Bool) (token : List Char)
    (hpunct : containsStr ".,;:!?".data token = false)
    (hdig : (rd && token.any Char.isDigit) = false)
    (hlen : token.length ≤ 20)
    (hlex : (ws.contains (token.map Char.toLower) || ws.contains token) = false)
    (hapo : containsStr token ['\''] = true) :
    keepToken ws rd token =
      (contractionHit ws token || (containsStr token ['-'] && hyphenRuleHit ws token)) := by
  have hmem : '\'' ∈ token := containsStr_single token '\'' hapo
  have hmem2 : '\'' ∈ token.map Char.toLower :=
    List.mem_map.mpr ⟨'\'', hmem, by decide⟩
  unfold keepToken
  rw [if_neg (by simp [hpunct]), if_neg (by simp [hdig]),
    if_neg (by omega : ¬ token.length > 20), if_neg (by rw [hlex]; exact Bool.false_ne_true)]
  by_cases hch : contractionHit ws token = true
  · rw [if_pos (by simp [hapo, hch])]
    simp [hch]
  · have hch' : contractionHit ws token = false := by
      revert hch; cases contractionHit ws token <;> simp
    rw [if_neg (by simp [hch'])]
    by_cases hhy : (containsStr token ['-'] && hyphenRuleHit ws token) = true
    · rw [if_pos hhy]
      simp [hch', hhy]
    · have hhy' : (containsStr token ['-'] && hyphenRuleHit ws token) = false := by
        revert hhy; cases (containsStr token ['-'] && hyphenRuleHit ws token) <;> simp
      rw [if_neg (by simp [hhy'])]
      have hsingle : (token.length = 1 && token.all Char.isAlpha) = false := by
        rcases Bool.eq_false_or_eq_true (token.length = 1 && token.all Char.isAlpha) with h | h
        · rw [Bool.and_eq_true] at h
          have := List.all_eq_true.mp h.2 '\'' hmem
          simp at this
        · exact h
      have habbrev : abbrevSet.contains (token.map Char.toLower) = false := by
        rcases Bool.eq_false_or_eq_true (abbrevSet.contains (token.map Char.toLower)) with h | h
        · have hm : (token.map Char.toLower) ∈ abbrevSet := List.mem_of_elem_eq_true h
          have : ∀ w ∈ abbrevSet, ¬ '\'' ∈ w := by decide
          exact absurd hmem2 (this _ hm)
        · exact h
      rw [if_neg (by rw [hsingle]; exact Bool.false_ne_true), if_neg (by rw [habbrev]; exact Bool.false_ne_true)]
      simp [hch', hhy']

/-- **C6** witness: the amended theorem applied to the token `"can't"`
over the lexicon `{"can"}`. -/
theorem C6_witness :
    (containsStr ".,;:!?".data "can\x27t".data = false ∧
     (false && ("can\x27t".data).any Char.isDigit) = false ∧
     ("can\x27t".data).length ≤ 20 ∧
     (["can".data].contains (("can\x27t".data).map Char.toLower) ||
       ["can".data].contains "can\x27t".data) = false ∧
     containsStr "can\x27t".data ['\''] = true) ∧
    keepToken ["can".data] false "can\x27t".data =
      (contractionHit ["can".data] "can\x27t".data ||
        (containsStr "can\x27t".data ['-'] && hyphenRuleHit ["can".data] "can\x27t".data)) :=
  ⟨⟨by decide, by decide, by decide, by decide, by decide⟩,
    C6_contraction_replace_all _ _ _ (by decide) (by decide) (by decide) (by decide) (by decide)⟩

end LegalTTS

namespace LegalTTS

/-! ## C5: the word segmenter -/

/-- Python `str.strip()`: whitespace removed from both ends. -/
def pyStrip (l : List Char) : List Char :=
  ((l.dropWhile pySpace).reverse.dropWhile pySpace).reverse

/-- `[A-Za-z]`. -/
def pyAlpha (c : Char) : Bool := c.isUpper || c.isLower

/-- Worker for `longAlphaRuns`: `startOK` records whether the boundary
before the current alphabetic run holds (previous character non-word or
start of string), `acc` the current run reversed. -/
def alphaRunsGo : Bool → List Char → List Char → List (List Char)
  | startOK, acc, [] =>
    if !acc.isEmpty && startOK && decide (acc.length ≥ 12) then [acc.reverse] else []
  | startOK, acc, c :: rest =>
    if pyAlpha c then alphaRunsGo startOK (c :: acc) rest
    else
      let tail := alphaRunsGo (!pyWordChar c) [] rest
      if !acc.isEmpty && startOK && decide (acc.length ≥ 12) && !pyWordChar c then
        acc.reverse :: tail
      else tail

/-- `re.findall(r'\b[A-Za-z]{12,}\b', text)` (`tts_preparator.py:436`):
the maximal alphabetic runs of length at least 12 whose neighbours are
word boundaries. -/
def longAlphaRuns (text : List Char) : List (List Char) := alphaRunsGo true [] text

/-- CamelCase breaks: positions after a lowercase→uppercase transition
(`tts_preparator.py:447`–`449`). -/
def camelBreaks (w : List Char) : List Nat :=
  (List.range w.length).filter
    (fun i => decide (0 < i) && (w.getD (i - 1) ' ').isLower && (w.getD i ' ').isUpper)

/-- Every uppercase letter not at position 0 (`tts_preparator.py:455`–`457`). -/
def capitalBreaks (w : List Char) : List Nat :=
  (List.range w.length).filter (fun i => decide (0 < i) && (w.getD i ' ').isUpper)

/-- The inner `for length in range(min(12, len-i), 2, -1)` loop
(`tts_preparator.py:464`–`470`): the first substring length (from `L`
down to 3) whose lowercased slice is in the word set. -/
def tryLens (ws : List (List Char)) (w : List Char) (i : Nat) : Nat → Option Nat
  | 0 => none
  | L + 1 =>
    if L + 1 < 3 then none
    else if ws.contains (((w.drop i).take (L + 1)).map Char.toLower) then some (L + 1)
    else tryLens ws w i L

/-- The greedy left-to-right lexicon scan (`tts_preparator.py:461`–`472`);
`fuel` bounds the number of loop iterations (each advances `i` by ≥ 1). -/
def greedyScan (ws : List (List Char)) (w : List Char) : Nat → Nat → List Nat
  | 0, _ => []
  | fuel + 1, i =>
    if i < w.length then
      match tryLens ws w i (min 12 (w.length - i)) with
      | some len =>
        (if i + len < w.length then [i + len] else []) ++ greedyScan ws w fuel (i + len)
      | none => greedyScan ws w fuel (i + 1)
    else []

def lexiconBreaks (ws : List (List Char)) (w : List Char) : List Nat :=
  greedyScan ws w w.length 0

/-- The fixed name-ending list (`tts_preparator.py:476`). -/
def nameEndings : List (List Char) :=
  ["son", "ton", "ley", "man", "ard", "ner", "ter", "ing", "ford", "berg", "burg"].map
    String.data

/-- The ending loop (`tts_preparator.py:475`–`479`): `rfind` hits the end
of the word exactly when the lowercased word ends with the ending; the
break sits at the ending's start (which must be positive). -/
def endingBreaks (w : List Char) : List Nat :=
  nameEndings.filterMap (fun e =>
    if e.isSuffixOf (w.map Char.toLower) && decide (e.length < w.length) then
      some (w.length - e.length)
    else none)

def insertAsc (x : Nat) : List Nat → List Nat
  | [] => [x]
  | y :: ys => if y ≤ x then y :: insertAsc x ys else x :: y :: ys

/-- Python `sorted` (ascending) on the break offsets. -/
def sortNatAsc : List Nat → List Nat
  | [] => []
  | x :: xs => insertAsc x (sortNatAsc xs)

/-- The space-insertion loop (`tts_preparator.py:483`–`488`): slices of
`w` between consecutive break offsets, separated by single spaces. -/
def buildSpaced (w : List Char) (breaks : List Nat) : List Char :=
  let f := breaks.foldl
    (fun (acc : List Char × Nat) bp =>
      (acc.1 ++ (w.drop acc.2).take (bp - acc.2) ++ [' '], bp)) ([], 0)
  f.1 ++ w.drop f.2

/-- The last-resort chunking for words over 25 characters
(`tts_preparator.py:495`–`498`): a space after every 5 characters. -/
def chunk5 (w : List Char) : List Char :=
  (List.range ((w.length + 4) / 5)).foldl
    (fun acc k => acc ++ (w.drop (5 * k)).take 5 ++ [' ']) []

/-- The full break-offset computation for one long word
(`tts_preparator.py:444`–`479`): camelCase transitions, then (if none, or
the word exceeds 20 characters) capital letters, then (if still none) the
greedy lexicon scan, and finally the name-ending breaks for words longer
than 5 characters. -/
def allBreaks (ws : List (List Char)) (w : List Char) : List Nat :=
  let pb1 := camelBreaks w
  let pb2 := if pb1.isEmpty || decide (w.length > 20) then pb1 ++ capitalBreaks w else pb1
  let pb3 := if pb2.isEmpty then lexiconBreaks ws w else pb2
  if decide (w.length > 5) then pb3 ++ endingBreaks w else pb3

/-- The body of the `for long_word in words` loop
(`tts_preparator.py:438`–`499`): compute breaks and, if any were found,
replace the word by its spaced form via `str.replace` (all occurrences);
otherwise chunk words longer than 25 characters. -/
def processLongWord (ws : List (List Char)) (text w : List Char) : List Char :=
  if ws.contains (w.map Char.toLower) then text
  else
    let breaks := allBreaks ws w
    if !breaks.isEmpty then
      pyReplace text w (pyStrip (buildSpaced w (sortNatAsc breaks)))
    else if decide (w.length > 25) then
      pyReplace text w (pyStrip (chunk5 w))
    else text

/-- `_break_concatenated_words(text, word_set)`
(`tts_preparator.py:420`–`501`). -/
def breakConcatenatedWords (ws : List (List Char)) (text : List Char) : List Char :=
  (longAlphaRuns text).foldl (processLongWord ws) text

-- sanity checks
example : longAlphaRuns "AbcdefLmnopq and AbcdefLmnopq".data =
    ["AbcdefLmnopq".data, "AbcdefLmnopq".data] := by decide
example : allBreaks [] "AbcdefLmnopq".data = [6] := by decide
example : breakConcatenatedWords [] "AbcdefLmnopq and AbcdefLmnopq".data =
    "Abcdef Lmnopq and Abcdef Lmnopq".data := by decide

theorem pyReplaceGo_skip (old new : List Char) (k : Nat) :
    ∀ s, pyReplaceGo old new k s = pyReplaceGo old new 0 (s.drop k) := by
  induction k with
  | zero => intro s; rw [List.drop_zero]
  | succ k ih =>
    intro s
    match s with
    | [] => rfl
    | c :: rest => rw [pyReplaceGo, ih rest, List.drop_succ_cons]

theorem pySplitGo_skip (old : List Char) (k : Nat) :
    ∀ acc s, pySplitGo old k acc s = pySplitGo old 0 acc (s.drop k) := by
  induction k with
  | zero => intro acc s; rw [List.drop_zero]
  | succ k ih =>
    intro acc s
    match s with
    | [] => rfl
    | c :: rest => rw [pySplitGo, ih acc rest, List.drop_succ_cons]

theorem pySplitGo_ne_nil (old : List Char) :
    ∀ s k acc, pySplitGo old k acc s ≠ [] := by
  intro s
  induction s with
  | nil => intro k acc; cases k <;> simp [pySplitGo]
  | cons c rest ih =>
    intro k acc
    match k with
    | 0 =>
      rw [pySplitGo]
      split
      · simp
      · exact ih 0 (c :: acc)
    | k + 1 => rw [pySplitGo]; exact ih k acc

theorem pySplitGo_acc (old : List Char) :
    ∀ s acc, ∃ p ps, pySplitGo old 0 [] s = p :: ps ∧
      pySplitGo old 0 acc s = (acc.reverse ++ p) :: ps := by
  intro s
  induction s with
  | nil =>
    intro acc
    exact ⟨[], [], rfl, by simp [pySplitGo]⟩
  | cons c rest ih =>
    intro acc
    by_cases hm : (!old.isEmpty && old.isPrefixOf (c :: rest)) = true
    · refine ⟨[], pySplitGo old (old.length - 1) [] rest, ?_, ?_⟩
      · rw [pySplitGo, if_pos hm]; rfl
      · rw [pySplitGo, if_pos hm]; simp
    · obtain ⟨p, ps, h1, h2⟩ := ih [c]
      obtain ⟨p2, ps2, h12, h22⟩ := ih (c :: acc)
      rw [h1] at h12
      injection h12 with e1 e2
      subst e1; subst e2
      refine ⟨[c] ++ p, ps, ?_, ?_⟩
      · rw [pySplitGo, if_neg hm, h2]
        simp
      · rw [pySplitGo, if_neg hm, h22]
        simp

/-- Python `s.replace(old, new)` equals `new.join(s.split(old))`: every
non-overlapping occurrence of `old` is replaced, not only the first. -/
theorem pyReplace_eq_joinWith (old new : List Char) (hold : old ≠ []) :
    ∀ s, pyReplace s old new = joinWith new (pySplitStr s old) := by
  have main : ∀ n s, s.length ≤ n → pyReplace s old new = joinWith new (pySplitStr s old) := by
    intro n
    induction n with
    | zero =>
      intro s hs
      have : s = [] := List.eq_nil_of_length_eq_zero (Nat.le_zero.mp hs)
      subst this
      simp [pyReplace, pyReplaceGo, pySplitStr, pySplitGo, joinWith]
    | succ n ih =>
      intro s hs
      match s with
      | [] => simp [pyReplace, pyReplaceGo, pySplitStr, pySplitGo, joinWith]
      | c :: rest =>
        by_cases hm : (!old.isEmpty && old.isPrefixOf (c :: rest)) = true
        · have hlen1 : 1 ≤ old.length := by
            match old with
            | [] => exact absurd rfl hold
            | _ :: _ => simp
          rw [pyReplace, pyReplaceGo, if_pos hm, pyReplaceGo_skip]
          simp only [pySplitStr, pySplitGo]
          rw [if_pos hm, pySplitGo_skip]
          have hdrop : (rest.drop (old.length - 1)).length ≤ n := by
            have := List.length_drop (old.length - 1) rest
            have h2 : rest.length ≤ n := by simpa using hs
            omega
          have ihx := ih (rest.drop (old.length - 1)) hdrop
          rw [pyReplace] at ihx
          rw [ihx]
          have hQ := pySplitGo_ne_nil old (rest.drop (old.length - 1)) 0 []
          match hq : pySplitGo old 0 [] (rest.drop (old.length - 1)) with
          | [] => exact absurd hq hQ
          | q :: qs =>
            rw [joinWith]
            match qs with
            | [] => simp [joinWith, pySplitStr, hq]
            | q2 :: qs2 => simp [joinWith, pySplitStr, hq]
        · rw [pyReplace, pyReplaceGo, if_neg hm]
          have hrest : rest.length ≤ n := by simpa using hs
          have ihx := ih rest hrest
          rw [pyReplace] at ihx
          rw [ihx]
          obtain ⟨p, ps, h1, h2⟩ := pySplitGo_acc old rest [c]
          simp only [pySplitStr, pySplitGo]
          rw [if_neg hm, h2, h1]
          match ps with
          | [] => simp [joinWith]
          | p2 :: ps2 => simp [joinWith]
  intro s
  exact main s.length s (Nat.le_refl _)

/-- **C5** (counterexample): the 12-character run `"AbcdefLmnopq"`
appears twice; `str.replace` (`tts_preparator.py:491`) replaces *all*
occurrences, so both are spaced and the original run no longer occurs
anywhere in the output — contradicting "only the run's first textual
occurrence is replaced" / "corrected only once". -/
theorem C5_counterexample :
    breakConcatenatedWords [] "AbcdefLmnopq and AbcdefLmnopq".data =
      "Abcdef Lmnopq and Abcdef Lmnopq".data ∧
    containsStr "Abcdef Lmnopq and Abcdef Lmnopq".data "AbcdefLmnopq".data = false := by
  constructor
  · decide
  · decide

/-- **C5** (amended): for every qualifying run for which break offsets
were found, the replacement step rewrites **every** non-overlapping
occurrence of the run in the working text (Python `str.replace`
semantics: the result is the spaced form joined between the pieces of the
split on the run), so a run appearing multiple times is corrected at
every occurrence, not only the first. -/
theorem C5_replace_all_occurrences (ws : List (List Char)) (text w : List Char)
    (hw : w ≠ [])
    (hlex : ws.contains (w.map Char.toLower) = false)
    (hbr : (allBreaks ws w).isEmpty = false) :
    processLongWord ws text w =
      joinWith (pyStrip (buildSpaced w (sortNatAsc (allBreaks ws w))))
        (pySplitStr text w) := by
  unfold processLongWord
  rw [if_neg (by rw [hlex]; exact Bool.false_ne_true),
    if_pos (by rw [hbr]; rfl)]
  exact pyReplace_eq_joinWith w _ hw text

/-- **C5** witness: the amended theorem at the doubled-run text. -/
theorem C5_witness :
    (("AbcdefLmnopq".data ≠ []) ∧
     (([] : List (List Char)).contains ("AbcdefLmnopq".data.map Char.toLower) = false) ∧
     (allBreaks [] "AbcdefLmnopq".data).isEmpty = false) ∧
    processLongWord [] "AbcdefLmnopq and AbcdefLmnopq".data "AbcdefLmnopq".data =
      joinWith (pyStrip (buildSpaced "AbcdefLmnopq".data
          (sortNatAsc (allBreaks [] "AbcdefLmnopq".data))))
        (pySplitStr "AbcdefLmnopq and AbcdefLmnopq".data "AbcdefLmnopq".data) :=
  ⟨⟨by decide, by decide, by decide⟩,
    C5_replace_all_occurrences _ _ _ (by decide) (by decide) (by decide)⟩

end LegalTTS

namespace LegalTTS

/-! ## C7: digit removal (and the regex substitution engine) -/

/-- Regular-expression syntax as used by the `re.sub` patterns of
`tts_preparator.py`: character predicates, concatenation, alternation,
greedy and lazy star, and the zero-width word boundary `\b`. -/
inductive RE where
  | eps
  | pred (p : Char → Bool)
  | cat (r1 r2 : RE)
  | alt (r1 r2 : RE)
  | starG (r : RE)
  | starL (r : RE)
  | bound

def isWordB : Option Char → Bool
  | some c => pyWordChar c
  | none => false

def headWordB : List Char → Bool
  | [] => false
  | c :: _ => pyWordChar c

/-- `\b` at the position between `prev` and the head of `s`. -/
def atBoundary (prev : Option Char) (s : List Char) : Bool :=
  isWordB prev != headWordB s

/-- The character just before position `n` of `s` (`prev` when `n = 0`). -/
def lastOpt (prev : Option Char) (s : List Char) (n : Nat) : Option Char :=
  if n = 0 then prev else some (s.getD (n - 1) ' ')

/-- One level of the priority matcher, structural in the pattern: returns
all extents (consumed lengths) with which `re` can match a prefix of `s`,
in backtracking priority order (the first element is the extent the
Python engine commits to).  `prev` is the character before `s` (for
`\b`); `next` continues a star after one nonempty iteration. -/
def matchWith (next : RE → Option Char → List Char → List Nat) :
    RE → Option Char → List Char → List Nat
  | .eps, _, _ => [0]
  | .bound, prev, s => if atBoundary prev s then [0] else []
  | .pred _, _, [] => []
  | .pred p, _, c :: _ => if p c then [1] else []
  | .alt r1 r2, prev, s => matchWith next r1 prev s ++ matchWith next r2 prev s
  | .cat r1 r2, prev, s =>
    (matchWith next r1 prev s).flatMap (fun n1 =>
      (matchWith next r2 (lastOpt prev s n1) (s.drop n1)).map (fun n2 => n1 + n2))
  | .starG r, prev, s =>
    (((matchWith next r prev s).filter (fun n => 0 < n)).flatMap (fun n =>
      (next (.starG r) (lastOpt prev s n) (s.drop n)).map (fun n2 => n + n2)))
      ++ [0]
  | .starL r, prev, s =>
    0 :: ((matchWith next r prev s).filter (fun n => 0 < n)).flatMap (fun n =>
      (next (.starL r) (lastOpt prev s n) (s.drop n)).map (fun n2 => n + n2))

/-- Priority matcher with a fuel bound on the number of star iterations;
every iteration consumes at least one character, so any `fuel > s.length`
gives the true backtracking semantics (see `reMatchLens`). -/
def matchLens : Nat → RE → Option Char → List Char → List Nat
  | 0 => matchWith (fun _ _ _ => [0])
  | fuel + 1 => matchWith (matchLens fuel)

/-- `matchLens` with enough fuel for any chain of star iterations on `s`. -/
def reMatchLens (re : RE) (prev : Option Char) (s : List Char) : List Nat :=
  matchLens (s.length + 1) re prev s

/-- Worker for `reSub`: `skip` counts characters still belonging to the
last replaced match; `prev` is the previous character (for `\b`). -/
def reSubGo (pat : RE) (repl : List Char) : Nat → Option Char → List Char → List Char
  | skip + 1, _, c :: rest => reSubGo pat repl skip (some c) rest
  | _, prev, [] => if (reMatchLens pat prev []).isEmpty then [] else repl
  | 0, prev, c :: rest =>
    match (reMatchLens pat prev (c :: rest)).head? with
    | some 0 => repl ++ c :: reSubGo pat repl 0 (some c) rest
    | some (n + 1) => repl ++ reSubGo pat repl n (some c) rest
    | none => c :: reSubGo pat repl 0 (some c) rest

/-- `re.sub(pat, repl, s)` for a fixed replacement string: leftmost
non-overlapping matches, each replaced by `repl`. -/
def reSub (pat : RE) (repl : List Char) (s : List Char) : List Char :=
  reSubGo pat repl 0 none s

/-! Pattern building blocks. -/

def chr (c : Char) : RE := .pred (fun x => x = c)

def strRE (s : String) : RE := s.data.foldr (fun c r => RE.cat (chr c) r) .eps

/-- A character from the given set. -/
def anyChr (s : String) : RE := .pred (fun x => s.data.contains x)

/-- A character outside the given set. -/
def notChr (s : String) : RE := .pred (fun x => !s.data.contains x)

def optG (r : RE) : RE := .alt r .eps

def plusG (r : RE) : RE := .cat r (.starG r)

def digitRE : RE := .pred Char.isDigit

def wsRE : RE := .pred pySpace

/-- Python `.` (no DOTALL): anything but a newline. -/
def dotRE : RE := .pred (fun c => c != '\n')

def nonWsRE : RE := .pred (fun c => !pySpace c)

-- engine sanity checks
example : (reMatchLens (.cat digitRE (.starG digitRE)) none "123a".data).head? = some 3 := by
  decide
example : (reMatchLens (.cat digitRE (.starL digitRE)) none "123a".data).head? = some 1 := by
  decide
example : reSub (.cat .bound (.cat digitRE (.cat digitRE (.cat digitRE (.cat digitRE
    .bound))))) "year".data "in 1954 and 12345.".data = "in year and 12345.".data := by decide

theorem length_dropWhile_le {α : Type} (p : α → Bool) (l : List α) :
    (l.dropWhile p).length ≤ l.length := by
  induction l with
  | nil => simp [List.dropWhile]
  | cons c rest ih =>
    rw [List.dropWhile]
    split
    · exact Nat.le_trans ih (Nat.le_succ _)
    · simp

/-- The four ordinal suffixes of the pattern at `tts_preparator.py:234`. -/
def ordSuffixes : List (List Char) := [['s', 't'], ['n', 'd'], ['r', 'd'], ['t', 'h']]

/-- Scanner for `re.sub(r'\b(\d+)(st|nd|rd|th)\b', r'number\1', text)`
(`tts_preparator.py:234`): a digit run at a word boundary followed by an
ordinal suffix and a word boundary becomes `number<digits>` — the digits
are retained. -/
def ordinalGo : Option Char → List Char → List Char
  | _, [] => []
  | prev, c :: rest =>
    if !isWordB prev && c.isDigit then
      match h : rest.dropWhile Char.isDigit with
      | a :: b :: rest2 =>
        if ordSuffixes.contains [a, b] &&
            (match rest2 with | [] => true | d :: _ => !pyWordChar d) then
          "number".data ++ (c :: rest.takeWhile Char.isDigit) ++
            ordinalGo (some b) rest2
        else c :: ordinalGo (some c) rest
      | _ => c :: ordinalGo (some c) rest
    else c :: ordinalGo (some c) rest
termination_by _ s => s.length
decreasing_by
  · have h1 := length_dropWhile_le Char.isDigit rest
    rw [h] at h1
    simp at h1 ⊢
    omega
  · simp
  · simp
  · simp

def ordinalSub (text : List Char) : List Char := ordinalGo none text

/-- The twelve month names of the pattern at `tts_preparator.py:244`. -/
def monthNames : List (List Char) :=
  ["January", "February", "March", "April", "May", "June", "July", "August",
   "September", "October", "November", "December"].map String.data

/-- Attempt the tail of `\b(Month)\s+\d+,\s+\d+\b` at the start of `s`:
returns the matched month and the total matched length. -/
def matchMonthDate (s : List Char) : Option (List Char × Nat) :=
  match monthNames.find? (fun m => m.isPrefixOf s) with
  | none => none
  | some m =>
    let r0 := s.drop m.length
    let w1 := r0.takeWhile pySpace
    let r1 := r0.dropWhile pySpace
    let d1 := r1.takeWhile Char.isDigit
    let r2 := r1.dropWhile Char.isDigit
    if w1.isEmpty || d1.isEmpty then none
    else
      match r2 with
      | ',' :: r3 =>
        let w2 := r3.takeWhile pySpace
        let r4 := r3.dropWhile pySpace
        let d2 := r4.takeWhile Char.isDigit
        let r5 := r4.dropWhile Char.isDigit
        if w2.isEmpty || d2.isEmpty then none
        else if (match r5 with | [] => true | d :: _ => !pyWordChar d) then
          some (m, m.length + w1.length + d1.length + 1 + w2.length + d2.length)
        else none
      | _ => none

/-- Scanner for
`re.sub(r'\b(Month) \d+, \d+\b', r'\1 date', text)`
(`tts_preparator.py:244`–`245`). -/
def monthDateGo : Option Char → List Char → List Char
  | _, [] => []
  | prev, c :: rest =>
    if !isWordB prev then
      match matchMonthDate (c :: rest) with
      | some (m, n) =>
        m ++ " date".data ++
          monthDateGo (some ((c :: rest).getD (n - 1) ' ')) (rest.drop (n - 1))
      | none => c :: monthDateGo (some c) rest
    else c :: monthDateGo (some c) rest
termination_by _ s => s.length
decreasing_by
  · have := List.length_drop (n - 1) rest
    simp
    omega
  · simp
  · simp

def monthDateSub (text : List Char) : List Char := monthDateGo none text

/-- `re.sub(r'[0-9]', '', text)` (`tts_preparator.py:255`): delete every
digit character. -/
def deleteDigits : List Char → List Char
  | [] => []
  | c :: rest => if c.isDigit then deleteDigits rest else c :: deleteDigits rest

/-- `\b[Ss]ection\s+\d+` (`tts_preparator.py:237`). -/
def sectionPat : RE :=
  .cat .bound (.cat (anyChr "Ss") (.cat (strRE "ection") (.cat (plusG wsRE) (plusG digitRE))))

/-- `\b[Pp]aragraph\s+\d+` (`tts_preparator.py:238`). -/
def paragraphPat : RE :=
  .cat .bound (.cat (anyChr "Pp") (.cat (strRE "aragraph") (.cat (plusG wsRE) (plusG digitRE))))

/-- `\b[Pp]age\s+\d+` (`tts_preparator.py:241`). -/
def pagePat : RE :=
  .cat .bound (.cat (anyChr "Pp") (.cat (strRE "age") (.cat (plusG wsRE) (plusG digitRE))))

/-- `\b\d{4}\b` (`tts_preparator.py:246`). -/
def yearPat : RE :=
  .cat .bound (.cat digitRE (.cat digitRE (.cat digitRE (.cat digitRE .bound))))

/-- `\$\d[\d,.]*` (`tts_preparator.py:249`). -/
def dollarPat : RE :=
  .cat (chr '$') (.cat digitRE (.starG (anyChr "0123456789,.")))

/-- `\b\d[\d,.]*\s*%` (`tts_preparator.py:252`). -/
def pctPat : RE :=
  .cat .bound (.cat digitRE (.cat (.starG (anyChr "0123456789,.")) (.cat (.starG wsRE)
    (chr '%'))))

/-- `remove_all_digits(text)` (`tts_preparator.py:214`–`255`): the seven
rewrite passes in source order, then deletion of every remaining digit. -/
def remove_all_digits (text : List Char) : List Char :=
  deleteDigits
    (reSub pctPat "percentage value".data
      (reSub dollarPat "dollar amount".data
        (reSub yearPat "year".data
          (monthDateSub
            (reSub pagePat "page number".data
              (reSub paragraphPat "paragraph number".data
                (reSub sectionPat "section number".data
                  (ordinalSub text))))))))


theorem deleteDigits_no_digit (l : List Char) :
    (deleteDigits l).all (fun c => !c.isDigit) = true := by
  induction l with
  | nil => rfl
  | cons c rest ih =>
    rw [deleteDigits]
    split
    · exact ih
    · rename_i hc
      simp only [List.all_cons, ih, Bool.and_true, Bool.not_eq_true']
      exact Bool.of_not_eq_true hc

/-- **C7**: `stripDigits` (`remove_all_digits`) is a total function
(modelled as such — every Python path is a regex substitution, which
cannot fail) and deterministic, and for every input its output contains
no digit character 0–9: the final `re.sub(r'[0-9]', '', text)` pass
deletes every remaining digit, including the digits that the ordinal
rewrite pass carried through as `number<digits>`. -/
theorem C7_no_digit_in_output (s : List Char) :
    (remove_all_digits s).all (fun c => !c.isDigit) = true :=
  deleteDigits_no_digit _

end LegalTTS

namespace LegalTTS

/-! ## C10: the dictionary filter pipeline -/

/-- Concatenation of a pattern sequence. -/
def catAll (rs : List RE) : RE := rs.foldr .cat .eps

/-- `[a-zA-Z]`. -/
def alphaRE : RE := .pred pyAlpha

/-- `re.sub(r'\s+', ' ', s)`: every whitespace run becomes one space. -/
def normWsAll : List Char → List Char
  | [] => []
  | c :: rest =>
    if pySpace c then ' ' :: normWsAll (rest.dropWhile pySpace)
    else c :: normWsAll rest
termination_by l => l.length
decreasing_by
  · have := length_dropWhile_le pySpace rest
    simp
    omega
  · simp

/-- `\([^)]*"[^"]*https?[^"]*"[^)]*\)` (`tts_preparator.py:291`). -/
def prePassHttp : RE :=
  catAll [chr '(', .starG (notChr ")"), chr '"', .starG (notChr "\""), strRE "http",
    optG (chr 's'), .starG (notChr "\""), chr '"', .starG (notChr ")"), chr ')']

/-- `\([^)]*"[^"]*google[^"]*"[^)]*\)` (`tts_preparator.py:292`). -/
def prePassGoogle : RE :=
  catAll [chr '(', .starG (notChr ")"), chr '"', .starG (notChr "\""), strRE "google",
    .starG (notChr "\""), chr '"', .starG (notChr ")"), chr ')']

/-- `\([^)]*"[^"]*scholar[^"]*"[^)]*\)` (`tts_preparator.py:293`). -/
def prePassScholar : RE :=
  catAll [chr '(', .starG (notChr ")"), chr '"', .starG (notChr "\""), strRE "scholar",
    .starG (notChr "\""), chr '"', .starG (notChr ")"), chr ')']

/-- `https?://\S+` (`tts_preparator.py:270`). -/
def urlPat1 : RE := catAll [strRE "http", optG (chr 's'), strRE "://", plusG nonWsRE]

/-- `www\.\S+` (`tts_preparator.py:271`). -/
def urlPat2 : RE := catAll [strRE "www.", plusG nonWsRE]

/-- `\("https?.*?scholar.*?case\?.*?"\)` (`tts_preparator.py:274`). -/
def urlPat3 : RE :=
  catAll [strRE "(\"", strRE "http", optG (chr 's'), .starL dotRE, strRE "scholar",
    .starL dotRE, strRE "case?", .starL dotRE, strRE "\")"]

/-- `\("https?.*?google.*?scholar.*?"\)` (`tts_preparator.py:275`). -/
def urlPat4 : RE :=
  catAll [strRE "(\"", strRE "http", optG (chr 's'), .starL dotRE, strRE "google",
    .starL dotRE, strRE "scholar", .starL dotRE, strRE "\")"]

/-- `\("[^"]*https?\s*:\s*/+\s*scholar\s*\.\s*google\s*\.\s*com[^"]*"\)`
(`tts_preparator.py:278`). -/
def urlPat5 : RE :=
  catAll [strRE "(\"", .starG (notChr "\""), strRE "http", optG (chr 's'), .starG wsRE,
    chr ':', .starG wsRE, plusG (chr '/'), .starG wsRE, strRE "scholar", .starG wsRE,
    chr '.', .starG wsRE, strRE "google", .starG wsRE, chr '.', .starG wsRE, strRE "com",
    .starG (notChr "\""), strRE "\")"]

/-- `\("[^"]*=\s*proximate\+cause\+cases[^"]*"\)` (`tts_preparator.py:279`). -/
def urlPat6 : RE :=
  catAll [strRE "(\"", .starG (notChr "\""), chr '=', .starG wsRE,
    strRE "proximate+cause+cases", .starG (notChr "\""), strRE "\")"]

/-- `https?\s*:?\s*//?\s*scholar\s*\.\s*google\s*\.\s*com\s*[^"\s,;:!?]*`
(`tts_preparator.py:282`). -/
def urlPat7 : RE :=
  catAll [strRE "http", optG (chr 's'), .starG wsRE, optG (chr ':'), .starG wsRE,
    chr '/', optG (chr '/'), .starG wsRE, strRE "scholar", .starG wsRE, chr '.',
    .starG wsRE, strRE "google", .starG wsRE, chr '.', .starG wsRE, strRE "com",
    .starG wsRE, .starG (.pred (fun c => !(c = '"' || pySpace c || ",;:!?".data.contains c)))]

/-- `\b[a-zA-Z0-9][a-zA-Z0-9-]*\.[a-zA-Z]{2,}\b` (`tts_preparator.py:285`). -/
def urlPat8 : RE :=
  catAll [.bound, .pred isAlnum, .starG (.pred (fun c => isAlnum c || c = '-')),
    chr '.', alphaRE, alphaRE, .starG alphaRE, .bound]

/-- `remove_all_urls(text)` (`tts_preparator.py:258`–`302`): the three
parenthesized-quote pre-passes, the ordered pattern list, whitespace
normalization and strip. -/
def remove_all_urls (text : List Char) : List Char :=
  pyStrip (normWsAll
    (reSub urlPat8 []
      (reSub urlPat7 []
        (reSub urlPat6 []
          (reSub urlPat5 []
            (reSub urlPat4 []
              (reSub urlPat3 []
                (reSub urlPat2 []
                  (reSub urlPat1 []
                    (reSub prePassScholar []
                      (reSub prePassGoogle []
                        (reSub prePassHttp [] text))))))))))))

/-- `re.split(r'([.!?])', text)` (`tts_preparator.py:339`): pieces and
single-character sentence terminators, terminators kept as their own
elements. -/
def splitSentGo (acc : List Char) : List Char → List (List Char)
  | [] => [acc.reverse]
  | c :: rest =>
    if ".!?".data.contains c then acc.reverse :: [c] :: splitSentGo [] rest
    else splitSentGo (c :: acc) rest

def splitSentences (text : List Char) : List (List Char) := splitSentGo [] text

/-- The chunking loop at `tts_preparator.py:342`–`346`: each piece is
rejoined with its trailing terminator. -/
def pairUp : List (List Char) → List (List Char)
  | [] => []
  | [x] => [x]
  | x :: y :: rest => (x ++ y) :: pairUp rest

/-- The character class kept by `re.sub(r'[^\s\w.,;:!?\'"-]+', ' ', ·)`
(`tts_preparator.py:349`). -/
def allowedSentChar (c : Char) : Bool :=
  pySpace c || pyWordChar c || ".,;:!?'\"-".data.contains c

/-- `re.sub(r'[^\s\w.,;:!?\'"-]+', ' ', sentence)`: each maximal run of
disallowed characters becomes one space. -/
def sanitizeChunk : List Char → List Char
  | [] => []
  | c :: rest =>
    if allowedSentChar c then c :: sanitizeChunk rest
    else ' ' :: sanitizeChunk (rest.dropWhile (fun d => !allowedSentChar d))
termination_by l => l.length
decreasing_by
  · simp
  · have := length_dropWhile_le (fun d => !allowedSentChar d) rest
    simp
    omega

/-- `[\w'\-]`: the token character class. -/
def tokClass (c : Char) : Bool := pyWordChar c || c = '\'' || c = '-'

def punctChars : List Char := ".,;:!?".data

/-- Backtracking of `[\w'\-]+\b` over a maximal class run: the largest
token length `k ≥ 1` after which a word boundary holds (the character
following the whole run is never a word character, the run being
maximal). -/
def bestTokLen (run : List Char) : Option Nat :=
  (((List.range run.length).reverse).map (· + 1)).find? (fun k =>
    pyWordChar (run.getD (k - 1) ' ') !=
      (if k < run.length then pyWordChar (run.getD k ' ') else false))

/-- `re.findall(r'\b[\w\'\-]+\b|[.,;:!?]', sentence)`
(`tts_preparator.py:352`): word-like tokens (with backtracked end
boundary) and single punctuation marks, left to right. -/
def tokenGo : Option Char → List Char → List (List Char)
  | _, [] => []
  | prev, c :: rest =>
    if tokClass c && (isWordB prev != pyWordChar c) then
      match h : bestTokLen (c :: rest.takeWhile tokClass) with
      | some k =>
        (c :: rest.takeWhile tokClass).take k ::
          tokenGo (some ((c :: rest.takeWhile tokClass).getD (k - 1) ' '))
            ((c :: rest).drop k)
      | none =>
        if punctChars.contains c then [c] :: tokenGo (some c) rest
        else tokenGo (some c) rest
    else if punctChars.contains c then [c] :: tokenGo (some c) rest
    else tokenGo (some c) rest
termination_by _ l => l.length
decreasing_by
  · rename_i hcl
    have hk : 1 ≤ k := by
      have hmem := List.mem_of_find?_eq_some h
      obtain ⟨k0, _, hk0⟩ := List.mem_map.mp hmem
      omega
    simp
    omega
  · simp
  · simp
  · simp
  · simp

def tokenize (sentence : List Char) : List (List Char) := tokenGo none sentence

/-- `re.sub(r'\s+([.,;:!?])', r'\1', s)` (`tts_preparator.py:408`):
whitespace immediately before a punctuation mark is deleted. -/
def fixSpacePunct : List Char → List Char
  | [] => []
  | c :: rest =>
    if pySpace c then
      match h : rest.dropWhile pySpace with
      | d :: rest2 =>
        if punctChars.contains d then d :: fixSpacePunct rest2
        else c :: fixSpacePunct rest
      | [] => c :: fixSpacePunct rest
    else c :: fixSpacePunct rest
termination_by l => l.length
decreasing_by
  · have h1 := length_dropWhile_le pySpace rest
    rw [h] at h1
    simp at h1 ⊢
    omega
  · simp
  · simp
  · simp

/-- The per-sentence body of the filter loop
(`tts_preparator.py:342`–`409`): sanitize, tokenize, filter each token
with the retention rules, join with spaces and squeeze spaces before
punctuation. -/
def processChunk (word_set : List (List Char)) (remove_digits : Bool)
    (chunk : List Char) : List Char :=
  fixSpacePunct
    (joinWith [' '] ((tokenize (sanitizeChunk chunk)).filter (keepToken word_set remove_digits)))

/-- `apply_dictionary_filter(text, custom_dictionary_path, remove_digits)`
(`tts_preparator.py:305`–`417`), with the loaded dictionary as the
parameter `word_set` (`_load_dictionary` merges external word sources).
URL removal, optional digit removal, whitespace normalization,
concatenated-word breaking, sentence chunking, per-chunk token filtering,
and final reassembly. -/
def apply_dictionary_filter (word_set : List (List Char)) (remove_digits : Bool)
    (text : List Char) : List Char :=
  let t1 := remove_all_urls text
  let t2 := if remove_digits then remove_all_digits t1 else t1
  let t3 := normWsAll t2
  let t4 := breakConcatenatedWords word_set t3
  let chunks := pairUp (splitSentences t4)
  pyStrip (normWsAll (joinWith [' '] (chunks.map (processChunk word_set remove_digits))))



/-! SegIn: contiguous-segment containment, and the bounded-alnum-run
property of the filter output. -/

/-- `l` occurs as a contiguous segment of `s`. -/
def SegIn (l s : List Char) : Prop := ∃ u v, s = u ++ l ++ v

/-- Every all-alphanumeric contiguous segment of `s` has length at most
`n` — equivalently, every maximal run of letters and digits in `s` has
length at most `n`. -/
def AlnumBounded (n : Nat) (s : List Char) : Prop :=
  ∀ l : List Char, l.all isAlnum = true → SegIn l s → l.length ≤ n

theorem segIn_len {l s : List Char} (h : SegIn l s) : l.length ≤ s.length := by
  obtain ⟨u, v, rfl⟩ := h
  simp
  omega

theorem segIn_mem {l s : List Char} {c : Char} (h : SegIn l s) (hc : c ∈ l) : c ∈ s := by
  obtain ⟨u, v, rfl⟩ := h
  simp [hc]

theorem segIn_trans {l m s : List Char} (h1 : SegIn l m) (h2 : SegIn m s) : SegIn l s := by
  obtain ⟨u, v, rfl⟩ := h1
  obtain ⟨u2, v2, rfl⟩ := h2
  exact ⟨u2 ++ u, v ++ v2, by simp⟩

theorem segIn_cons {l s : List Char} (c : Char) (h : SegIn l s) : SegIn l (c :: s) := by
  obtain ⟨u, v, rfl⟩ := h
  exact ⟨c :: u, v, rfl⟩

theorem segIn_nil_elim {l : List Char} (h : SegIn l []) : l = [] := by
  have hx := segIn_len h
  simp at hx
  exact hx

/-- Splitting: a segment avoiding the separator `c` lies wholly on one
side of it. -/
theorem segIn_split {l : List Char} {c : Char} (hc : c ∉ l) :
    ∀ {a b : List Char}, SegIn l (a ++ c :: b) → SegIn l a ∨ SegIn l b := by
  intro a b h
  obtain ⟨u, v, huv⟩ := h
  have e1t : (a ++ c :: b).take a.length = a := by
    rw [List.take_append_eq_append_take, List.take_length, Nat.sub_self, List.take_zero,
      List.append_nil]
  have e1d : (a ++ c :: b).drop a.length = c :: b := by
    rw [List.drop_append_eq_append_drop, List.drop_length, Nat.sub_self, List.drop_zero,
      List.nil_append]
  rcases le_or_lt (u.length + l.length) a.length with hle | hgt
  · left
    have e2 : (u ++ l ++ v).take a.length =
        u ++ (l ++ v.take (a.length - u.length - l.length)) := by
      rw [List.append_assoc, List.take_append_eq_append_take,
        List.take_of_length_le (by omega), List.take_append_eq_append_take,
        List.take_of_length_le (by omega)]
    have e3 : a = u ++ (l ++ v.take (a.length - u.length - l.length)) := by
      conv_lhs => rw [← e1t, huv]
      exact e2
    rw [← List.append_assoc] at e3
    exact ⟨u, _, e3⟩
  · rcases le_or_lt a.length u.length with hau | hau
    · right
      have e2 : (u ++ l ++ v).drop a.length = u.drop a.length ++ l ++ v := by
        rw [List.append_assoc, List.drop_append_eq_append_drop]
        have hz : a.length - u.length = 0 := by omega
        rw [hz, List.drop_zero, ← List.append_assoc]
      have hb : c :: b = u.drop a.length ++ l ++ v := by
        conv_lhs => rw [← e1d, huv]
        exact e2
      match hu : u.drop a.length with
      | [] =>
        rw [hu] at hb
        simp only [List.nil_append] at hb
        match l, hb with
        | [], _ => exact ⟨[], b, by simp⟩
        | x :: l2, hb2 =>
          exfalso
          have hx : x = c := by
            have := congrArg (fun t => t.headD ' ') hb2
            simpa using this.symm
          subst hx
          exact hc (List.mem_cons_self x l2)
      | x :: u2 =>
        rw [hu] at hb
        have hb2 : b = u2 ++ l ++ v := by
          have := congrArg List.tail hb
          simpa using this
        exact ⟨u2, v, hb2⟩
    · exfalso
      apply hc
      have e2 : (u ++ l ++ v).drop a.length = l.drop (a.length - u.length) ++ v := by
        rw [List.append_assoc, List.drop_append_eq_append_drop,
          List.drop_of_length_le (le_of_lt hau), List.nil_append,
          List.drop_append_eq_append_drop]
        have hz : a.length - u.length - l.length = 0 := by omega
        rw [hz, List.drop_zero]
      have hb : c :: b = l.drop (a.length - u.length) ++ v := by
        conv_lhs => rw [← e1d, huv]
        exact e2
      match hd : l.drop (a.length - u.length) with
      | [] =>
        exfalso
        have hlen := congrArg List.length hd
        simp at hlen
        omega
      | x :: t =>
        rw [hd] at hb
        have hx : c = x := by
          have := congrArg (fun s => s.headD ' ') hb
          simpa using this
        have hmem : x ∈ l.drop (a.length - u.length) := by
          rw [hd]
          exact List.mem_cons_self x t
        rw [hx]
        exact List.drop_subset _ _ hmem

/-- `l` is a prefix-segment of `s`. -/
def PreOf (l s : List Char) : Prop := ∃ v, s = l ++ v

theorem punct_not_alnum : ∀ p ∈ punctChars, isAlnum p = false := by decide

theorem pySpace_not_alnum (c : Char) (h : pySpace c = true) : isAlnum c = false := by
  have h2 : c = ' ' ∨ c = '\t' ∨ c = '\n' ∨ c = '\r' ∨ c = '\x0b' ∨ c = '\x0c' := by
    simpa [pySpace, or_assoc] using h
  rcases h2 with rfl | rfl | rfl | rfl | rfl | rfl <;> decide

theorem segIn_cons_elim {l s : List Char} {c : Char} (h : SegIn l (c :: s)) :
    PreOf l (c :: s) ∨ SegIn l s := by
  obtain ⟨u, v, huv⟩ := h
  match u, huv with
  | [], huv2 => exact Or.inl ⟨v, by simpa using huv2⟩
  | x :: u2, huv2 =>
    right
    refine ⟨u2, v, ?_⟩
    have := congrArg List.tail huv2
    simpa using this

theorem preOf_head_not_alnum {l s : List Char} {d : Char} (hl : l ≠ [])
    (hall : l.all isAlnum = true) (hd : isAlnum d = false) :
    ¬ PreOf l (d :: s) := by
  intro hp
  obtain ⟨v, hv⟩ := hp
  match l, hv with
  | [], _ => exact hl rfl
  | x :: l2, hv2 =>
    have hx : d = x := by
      have := congrArg (fun t => t.headD ' ') hv2
      simpa using this
    simp only [List.all_cons, Bool.and_eq_true] at hall
    rw [hx] at hd
    rw [hall.1] at hd
    cases hd

theorem preOf_to_segIn {l s : List Char} (h : PreOf l s) : SegIn l s := by
  obtain ⟨v, hv⟩ := h
  exact ⟨[], v, by simpa using hv⟩

theorem fix_transfer : ∀ s : List Char, ∀ l, l ≠ [] → l.all isAlnum = true →
    ((PreOf l (fixSpacePunct s) → PreOf l s) ∧
      (SegIn l (fixSpacePunct s) → SegIn l s)) := by
  intro s
  induction s using fixSpacePunct.induct with
  | case1 =>
    intro l hl _
    constructor
    · intro ⟨v, hv⟩
      rw [fixSpacePunct] at hv
      match l, hv with
      | [], _ => exact absurd rfl hl
    · intro h
      rw [fixSpacePunct] at h
      exact absurd (segIn_nil_elim h) hl
  | case2 c rest hws d rest2 h hd ih =>
    intro l hl hall
    have hfix : fixSpacePunct (c :: rest) = d :: fixSpacePunct rest2 := by
      rw [fixSpacePunct, if_pos hws]
      split
      · rename_i d2 rest3 heq
        rw [h] at heq
        injection heq with e1 e2
        subst e1
        subst e2
        rw [if_pos hd]
      all_goals (rename_i heq; rw [h] at heq; (first | cases heq | skip))
    have hdal : isAlnum d = false := punct_not_alnum d (List.mem_of_elem_eq_true hd)
    have hrest : rest = rest.takeWhile pySpace ++ d :: rest2 := by
      conv_lhs => rw [← List.takeWhile_append_dropWhile pySpace rest]
      rw [h]
    have hpreT : PreOf l (fixSpacePunct (c :: rest)) → PreOf l (c :: rest) := by
      intro hp
      rw [hfix] at hp
      exact absurd hp (preOf_head_not_alnum hl hall hdal)
    refine ⟨hpreT, fun hseg => ?_⟩
    rw [hfix] at hseg
    rcases segIn_cons_elim hseg with hpre | htail
    · exact absurd hpre (preOf_head_not_alnum hl hall hdal)
    · have h1 := (ih l hl hall).2 htail
      have h2 : SegIn rest2 rest := by
        refine ⟨rest.takeWhile pySpace ++ [d], [], ?_⟩
        conv_lhs => rw [hrest]
        simp
      exact segIn_cons c (segIn_trans h1 h2)
  | case3 c rest hws d rest2 h hd ih =>
    intro l hl hall
    have hfix : fixSpacePunct (c :: rest) = c :: fixSpacePunct rest := by
      rw [fixSpacePunct, if_pos hws]
      split
      · rename_i d2 rest3 heq
        rw [h] at heq
        injection heq with e1 e2
        subst e1
        subst e2
        rw [if_neg hd]
      all_goals (rename_i heq; rw [h] at heq; (first | cases heq | skip))
    have hcal : isAlnum c = false := pySpace_not_alnum c hws
    have hpreT : PreOf l (fixSpacePunct (c :: rest)) → PreOf l (c :: rest) := by
      intro hp
      rw [hfix] at hp
      exact absurd hp (preOf_head_not_alnum hl hall hcal)
    refine ⟨hpreT, fun hseg => ?_⟩
    rw [hfix] at hseg
    rcases segIn_cons_elim hseg with hpre | htail
    · exact absurd hpre (preOf_head_not_alnum hl hall hcal)
    · exact segIn_cons c ((ih l hl hall).2 htail)
  | case4 c rest hws h ih =>
    intro l hl hall
    have hfix : fixSpacePunct (c :: rest) = c :: fixSpacePunct rest := by
      rw [fixSpacePunct, if_pos hws]
      split
      all_goals
        first
          | rfl
          | (rename_i d2 rest3 heq
             rw [h] at heq
             cases heq)
    have hcal : isAlnum c = false := pySpace_not_alnum c hws
    have hpreT : PreOf l (fixSpacePunct (c :: rest)) → PreOf l (c :: rest) := by
      intro hp
      rw [hfix] at hp
      exact absurd hp (preOf_head_not_alnum hl hall hcal)
    refine ⟨hpreT, fun hseg => ?_⟩
    rw [hfix] at hseg
    rcases segIn_cons_elim hseg with hpre | htail
    · exact absurd hpre (preOf_head_not_alnum hl hall hcal)
    · exact segIn_cons c ((ih l hl hall).2 htail)
  | case5 c rest hws ih =>
    intro l hl hall
    have hfix : fixSpacePunct (c :: rest) = c :: fixSpacePunct rest := by
      rw [fixSpacePunct, if_neg hws]
    have hpreT : PreOf l (fixSpacePunct (c :: rest)) → PreOf l (c :: rest) := by
      intro hp
      rw [hfix] at hp
      obtain ⟨v, hv⟩ := hp
      match l, hv with
      | [], _ => exact absurd rfl hl
      | x :: l2, hv2 =>
        have hx : c = x := by
          have := congrArg (fun t => t.headD ' ') hv2
          simpa using this
        subst hx
        match l2 with
        | [] => exact ⟨rest, by simp⟩
        | y :: l3 =>
          have hv3 : fixSpacePunct rest = (y :: l3) ++ v := by
            have := congrArg List.tail hv2
            simpa using this
          have hall2 : (y :: l3).all isAlnum = true := by
            simp only [List.all_cons, Bool.and_eq_true] at hall ⊢
            exact hall.2
          obtain ⟨w, hw⟩ := (ih (y :: l3) (by simp) hall2).1 ⟨v, hv3⟩
          exact ⟨w, by rw [hw]; simp⟩
    refine ⟨hpreT, fun hseg => ?_⟩
    rw [hfix] at hseg
    rcases segIn_cons_elim hseg with hpre | htail
    · exact preOf_to_segIn (hpreT (by rw [hfix]; exact hpre))
    · exact segIn_cons c ((ih l hl hall).2 htail)


theorem norm_transfer : ∀ s : List Char, ∀ l, l ≠ [] → l.all isAlnum = true →
    ((PreOf l (normWsAll s) → PreOf l s) ∧
      (SegIn l (normWsAll s) → SegIn l s)) := by
  intro s
  induction s using normWsAll.induct with
  | case1 =>
    intro l hl _
    constructor
    · intro ⟨v, hv⟩
      rw [normWsAll] at hv
      match l, hv with
      | [], _ => exact absurd rfl hl
    · intro h
      rw [normWsAll] at h
      exact absurd (segIn_nil_elim h) hl
  | case2 c rest hws ih =>
    intro l hl hall
    have hfix : normWsAll (c :: rest) = ' ' :: normWsAll (rest.dropWhile pySpace) := by
      rw [normWsAll, if_pos hws]
    have hsal : isAlnum ' ' = false := by decide
    have hpreT : PreOf l (normWsAll (c :: rest)) → PreOf l (c :: rest) := by
      intro hp
      rw [hfix] at hp
      exact absurd hp (preOf_head_not_alnum hl hall hsal)
    refine ⟨hpreT, fun hseg => ?_⟩
    rw [hfix] at hseg
    rcases segIn_cons_elim hseg with hpre | htail
    · exact absurd hpre (preOf_head_not_alnum hl hall hsal)
    · have h1 := (ih l hl hall).2 htail
      have h2 : SegIn (rest.dropWhile pySpace) rest :=
        ⟨rest.takeWhile pySpace, [], by
          rw [List.append_nil, List.takeWhile_append_dropWhile]⟩
      exact segIn_cons c (segIn_trans h1 h2)
  | case3 c rest hws ih =>
    intro l hl hall
    have hfix : normWsAll (c :: rest) = c :: normWsAll rest := by
      rw [normWsAll, if_neg hws]
    have hpreT : PreOf l (normWsAll (c :: rest)) → PreOf l (c :: rest) := by
      intro hp
      rw [hfix] at hp
      obtain ⟨v, hv⟩ := hp
      match l, hv with
      | [], _ => exact absurd rfl hl
      | x :: l2, hv2 =>
        have hx : c = x := by
          have := congrArg (fun t => t.headD ' ') hv2
          simpa using this
        subst hx
        match l2 with
        | [] => exact ⟨rest, by simp⟩
        | y :: l3 =>
          have hv3 : normWsAll rest = (y :: l3) ++ v := by
            have := congrArg List.tail hv2
            simpa using this
          have hall2 : (y :: l3).all isAlnum = true := by
            simp only [List.all_cons, Bool.and_eq_true] at hall ⊢
            exact hall.2
          obtain ⟨w, hw⟩ := (ih (y :: l3) (by simp) hall2).1 ⟨v, hv3⟩
          exact ⟨w, by rw [hw]; simp⟩
    refine ⟨hpreT, fun hseg => ?_⟩
    rw [hfix] at hseg
    rcases segIn_cons_elim hseg with hpre | htail
    · exact preOf_to_segIn (hpreT (by rw [hfix]; exact hpre))
    · exact segIn_cons c ((ih l hl hall).2 htail)

/-- `pyStrip s` is a contiguous segment of `s`. -/
theorem segIn_pyStrip (s : List Char) : SegIn (pyStrip s) s := by
  unfold pyStrip
  have h1 : SegIn (s.dropWhile pySpace) s :=
    ⟨s.takeWhile pySpace, [], by rw [List.append_nil, List.takeWhile_append_dropWhile]⟩
  have h2 : ∀ t : List Char, SegIn ((t.reverse.dropWhile pySpace).reverse) t := by
    intro t
    refine ⟨[], (t.reverse.takeWhile pySpace).reverse, ?_⟩
    rw [List.nil_append]
    calc t = t.reverse.reverse := (List.reverse_reverse t).symm
    _ = (t.reverse.takeWhile pySpace ++ t.reverse.dropWhile pySpace).reverse := by
        rw [List.takeWhile_append_dropWhile]
    _ = (t.reverse.dropWhile pySpace).reverse ++ (t.reverse.takeWhile pySpace).reverse := by
        rw [List.reverse_append]
  exact segIn_trans (h2 (s.dropWhile pySpace)) h1

theorem alnumBounded_pyStrip {n : Nat} {s : List Char} (h : AlnumBounded n s) :
    AlnumBounded n (pyStrip s) := fun l hall hseg =>
  h l hall (segIn_trans hseg (segIn_pyStrip s))

theorem alnumBounded_normWsAll {n : Nat} {s : List Char} (h : AlnumBounded n s) :
    AlnumBounded n (normWsAll s) := by
  intro l hall hseg
  match l with
  | [] => simp
  | x :: l2 => exact h _ hall ((norm_transfer s _ (by simp) hall).2 hseg)

theorem alnumBounded_fixSpacePunct {n : Nat} {s : List Char} (h : AlnumBounded n s) :
    AlnumBounded n (fixSpacePunct s) := by
  intro l hall hseg
  match l with
  | [] => simp
  | x :: l2 => exact h _ hall ((fix_transfer s _ (by simp) hall).2 hseg)

/-- Joining with single spaces cannot merge alphanumeric runs across
pieces. -/
theorem alnumBounded_joinWith {n : Nat} :
    ∀ ts : List (List Char), (∀ t ∈ ts, AlnumBounded n t) →
      AlnumBounded n (joinWith [' '] ts) := by
  intro ts
  induction ts with
  | nil =>
    intro _ l hall hseg
    rw [joinWith] at hseg
    rw [segIn_nil_elim hseg]
    simp
  | cons x ts ih =>
    intro h l hall hseg
    match ts, hseg with
    | [], hseg2 =>
      rw [joinWith] at hseg2
      exact h x (List.mem_cons_self x []) l hall hseg2
    | y :: ts2, hseg2 =>
      rw [joinWith] at hseg2
      have hsp : ' ' ∉ l := by
        intro hmem
        have := List.all_eq_true.mp hall ' ' hmem
        simp [isAlnum] at this
      have hseg3 : SegIn l (x ++ ' ' :: joinWith [' '] (y :: ts2)) := by
        simpa using hseg2
      rcases segIn_split hsp hseg3 with hx | hrest
      · exact h x (List.mem_cons_self x (y :: ts2)) l hall hx
      · exact ih (fun t ht => h t (List.mem_cons_of_mem x ht)) l hall hrest


theorem containsStr_subset {hay pat : List Char} (h : containsStr hay pat = true) :
    ∀ c ∈ pat, c ∈ hay := by
  induction hay with
  | nil =>
    intro c hc
    rw [containsStr] at h
    rw [List.isEmpty_iff.mp h] at hc
    cases hc
  | cons x rest ih =>
    rw [containsStr, Bool.or_eq_true] at h
    rcases h with h | h
    · obtain ⟨t, ht⟩ := List.isPrefixOf_iff_prefix.mp h
      intro c hc
      rw [← ht]
      exact List.mem_append_left t hc
    · intro c hc
      exact List.mem_cons_of_mem x (ih h c hc)

/-- Every token the retention rules keep is either pure punctuation (no
alphanumerics) or at most 20 characters long: the length guard at
`tts_preparator.py:366` runs before every other keep rule. -/
theorem keepToken_bound (ws : List (List Char)) (rd : Bool) (token : List Char)
    (h : keepToken ws rd token = true) :
    token.all (fun c => !isAlnum c) = true ∨ token.length ≤ 20 := by
  unfold keepToken at h
  by_cases h1 : containsStr ".,;:!?".data token = true
  · left
    rw [List.all_eq_true]
    intro c hc
    have hmem : c ∈ punctChars := containsStr_subset h1 c hc
    rw [punct_not_alnum c hmem]
    rfl
  · rw [if_neg h1] at h
    by_cases h2 : (rd && token.any Char.isDigit) = true
    · rw [if_pos h2] at h; cases h
    · rw [if_neg h2] at h
      by_cases h3 : token.length > 20
      · rw [if_pos h3] at h; cases h
      · right; omega

theorem tokenBound_alnum (t : List Char)
    (h : t.all (fun c => !isAlnum c) = true ∨ t.length ≤ 20) :
    AlnumBounded 20 t := by
  intro l hall hseg
  rcases h with h | h
  · match l, hall with
    | [], _ => simp
    | x :: l2, hall2 =>
      exfalso
      have hx : x ∈ t := segIn_mem hseg (List.mem_cons_self x l2)
      have h1 := List.all_eq_true.mp h x hx
      have h2 := List.all_eq_true.mp hall2 x (List.mem_cons_self x l2)
      rw [h2] at h1
      cases h1
  · exact Nat.le_trans (segIn_len hseg) h

theorem processChunk_bounded (ws : List (List Char)) (rd : Bool) (chunk : List Char) :
    AlnumBounded 20 (processChunk ws rd chunk) := by
  unfold processChunk
  apply alnumBounded_fixSpacePunct
  apply alnumBounded_joinWith
  intro t ht
  exact tokenBound_alnum _ (keepToken_bound _ _ _ (List.mem_filter.mp ht).2)

/-- **C10**: in the string returned by `apply_dictionary_filter`, every
maximal run of letters and digits has length at most 20 (formally: every
all-alphanumeric contiguous segment of the output is at most 20 long).
Tokens longer than 20 characters are dropped before any retention rule
can keep them, kept punctuation tokens contain no alphanumerics, and the
reassembly steps (space joins, space-before-punctuation squeeze,
whitespace normalization, strip) never merge two alphanumeric runs. -/
theorem C10_alnum_runs_bounded (word_set : List (List Char)) (remove_digits : Bool)
    (text : List Char) :
    AlnumBounded 20 (apply_dictionary_filter word_set remove_digits text) := by
  unfold apply_dictionary_filter
  apply alnumBounded_pyStrip
  apply alnumBounded_normWsAll
  apply alnumBounded_joinWith
  intro t ht
  obtain ⟨chunk, _, rfl⟩ := List.mem_map.mp ht
  exact processChunk_bounded word_set remove_digits chunk

end LegalTTS

/-! ## C3: `identify_citations` (citation_filter.py:15-102) -/

namespace LegalTTS

/-- Boolean regular expressions for the anchored case-name patterns of
`identify_citations` (citation_filter.py:65-77).  Matching is decided with
Brzozowski derivatives, so every definition is structurally recursive and
kernel-computable. -/
inductive BRE where
  | eps : BRE
  | pred : (Char → Bool) → BRE
  | cat : BRE → BRE → BRE
  | alt : BRE → BRE → BRE
  | star : BRE → BRE

/-- Does the regex accept the empty string? -/
def BRE.nullable : BRE → Bool
  | .eps => true
  | .pred _ => false
  | .cat r1 r2 => r1.nullable && r2.nullable
  | .alt r1 r2 => r1.nullable || r2.nullable
  | .star _ => true

/-- Brzozowski derivative: the residual language after consuming `c`. -/
def BRE.deriv : BRE → Char → BRE
  | .eps, _ => .pred (fun _ => false)
  | .pred p, c => if p c then .eps else .pred (fun _ => false)
  | .cat r1 r2, c =>
      if r1.nullable then .alt (.cat (r1.deriv c) r2) (r2.deriv c)
      else .cat (r1.deriv c) r2
  | .alt r1 r2, c => .alt (r1.deriv c) (r2.deriv c)
  | .star r, c => .cat (r.deriv c) (.star r)

/-- Whole-string match (the case-name patterns end with the `$` anchor, so
they are matched against entire tails of the prefix text). -/
def bmatch (r : BRE) (s : List Char) : Bool := (s.foldl BRE.deriv r).nullable

def bchr (c : Char) : BRE := .pred (fun x => x = c)

/-- A literal character under `re.IGNORECASE`.  Exotic Unicode case folds
are outside the model; the patterns only use ASCII literals. -/
def ciChr (c : Char) : BRE := .pred (fun x => x.toLower = c.toLower)

def ciStr (s : String) : BRE := s.data.foldr (fun c r => BRE.cat (ciChr c) r) .eps

def bcatAll (rs : List BRE) : BRE := rs.foldr BRE.cat .eps

def bopt (r : BRE) : BRE := .alt r .eps

def bplus (r : BRE) : BRE := .cat r (.star r)

/-- Whitespace class `\s` of the patterns. -/
def bwsB : BRE := .pred pySpace

/-- One name word of the patterns, `[A-Z][a-zA-Z']*` under `re.IGNORECASE`:
any ASCII letter, then letters or apostrophes. -/
def nameWordB : BRE :=
  .cat (.pred pyAlpha) (.star (.pred (fun c => pyAlpha c || c = '\x27')))

/-- A multi-word name, `(?:[A-Z][a-zA-Z']*(?:\s+[A-Z][a-zA-Z']*)*)`. -/
def fullNameB : BRE := .cat nameWordB (.star (.cat (bplus bwsB) nameWordB))

/-- The versus separator `(?:v\.?|vs\.?|versus)`. -/
def vsB : BRE :=
  .alt (.cat (ciChr 'v') (bopt (bchr '.')))
    (.alt (.cat (ciStr "vs") (bopt (bchr '.'))) (ciStr "versus"))

/-- Group 1 of case-name pattern 1 (and of pattern 4): `Name v. Name`. -/
def group1Pat1 : BRE :=
  bcatAll [fullNameB, bplus bwsB, vsB, bplus bwsB, fullNameB]

/-- Group 1 of case-name pattern 2: `In\s+re\s+Name`. -/
def group1Pat2 : BRE :=
  bcatAll [ciStr "In", bplus bwsB, ciStr "re", bplus bwsB, fullNameB]

/-- Group 1 of case-name pattern 3: `Ex\s+parte\s+Name`. -/
def group1Pat3 : BRE :=
  bcatAll [ciStr "Ex", bplus bwsB, ciStr "parte", bplus bwsB, fullNameB]

/-- The non-capturing lead-in alternatives of pattern 4, each with the
trailing `\s+`, in the pattern's alternation order. -/
def leadAlts : List BRE :=
  [ciStr "in", ciStr "of", ciStr "by", ciStr "from", ciStr "see", ciStr "citing",
   bcatAll [ciStr "in", bplus bwsB, ciStr "the", bplus bwsB, ciStr "case",
            bplus bwsB, ciStr "of"],
   bcatAll [ciStr "the", bplus bwsB, ciStr "court", bplus bwsB, ciStr "in"]
  ].map (fun r => BRE.cat r (bplus bwsB))

/-- Trailing `,?\s*` of every pattern; the `$` anchor is realised by
matching it against the whole remaining tail of the string. -/
def tailB : BRE := .cat (bopt (bchr ',')) (.star bwsB)

def sliceLC (s : List Char) (a len : Nat) : List Char := (s.drop a).take len

/-- Python `re.search` for a pattern of shape `(g1)tail$` whose capture
group starts at the match start (patterns 1-3): the leftmost start position
wins, and at that position the greedy group commits to the longest extent
that still lets the anchored tail match.  Returns the group-1 span. -/
def searchNoLead (g1 tl : BRE) (s : List Char) : Option (Nat × Nat) :=
  (List.range (s.length + 1)).findSome? (fun a =>
    ((List.range (s.length - a + 1)).reverse).findSome? (fun len =>
      if bmatch g1 (sliceLC s a len) && bmatch tl (s.drop (a + len)) then
        some (a, a + len)
      else none))

/-- Python `re.search` for pattern 4, of shape `(?:lead)\s+(g1)tail$`:
leftmost match start, then the lead alternatives in the pattern's order
(each greedy, longest consumed prefix first), then the greedy capture
group.  Returns the group-1 span. -/
def searchWithLead (alts : List BRE) (g1 tl : BRE) (s : List Char) :
    Option (Nat × Nat) :=
  (List.range (s.length + 1)).findSome? (fun a =>
    alts.findSome? (fun altRE =>
      ((List.range (s.length - a + 1)).reverse).findSome? (fun d =>
        if bmatch altRE (sliceLC s a d) then
          ((List.range (s.length - a - d + 1)).reverse).findSome? (fun len =>
            if bmatch g1 (sliceLC s (a + d) len) &&
                bmatch tl (s.drop (a + d + len)) then
              some (a + d, a + d + len)
            else none)
        else none)))

/-- The pattern loop of citation_filter.py:79-84: the first pattern whose
search succeeds supplies the group-1 span (validated against CPython `re`
on a battery of prefixes, including the IGNORECASE subtlety that pattern 1
usually absorbs the lead-in words of pattern 4). -/
def caseNameSearch (p : List Char) : Option (Nat × Nat) :=
  match searchNoLead group1Pat1 tailB p with
  | some sp => some sp
  | none =>
    match searchNoLead group1Pat2 tailB p with
    | some sp => some sp
    | none =>
      match searchNoLead group1Pat3 tailB p with
      | some sp => some sp
      | none => searchWithLead leadAlts group1Pat1 tailB p

/-- Citation class reported by the eyecite oracle (the `isinstance` chain
at citation_filter.py:47-56). -/
inductive OracleKind where
  | full | short | supra | idcite | unknown
deriving Repr, DecidableEq

def kindString : OracleKind → String
  | .full => "full"
  | .short => "short"
  | .supra => "supra"
  | .idcite => "id"
  | .unknown => "unknown"

/-- One citation object returned by `eyecite.get_citations`, reduced to the
fields `identify_citations` reads: `span()` (possibly falsy or holding a
`None` component) and the class used for the type string.  The oracle is a
parameter of the embedding because eyecite is an external library. -/
structure OracleCitation where
  span : Option (Option Nat × Option Nat)
  kind : OracleKind
deriving Repr, DecidableEq

/-- Embedding of `identify_citations` (citation_filter.py:15-102),
parametrized by the eyecite oracle.  Entries whose oracle span is falsy or
has a `None` component are skipped (line 40); everything else is taken
verbatim from the oracle, and the case name is searched in `text[:start]`
(lines 62-84). -/
def identify_citations (oracle : List OracleCitation) (text : List Char) :
    List CitationEntry :=
  if text = [] then []
  else
    oracle.filterMap (fun c =>
      match c.span with
      | none => none
      | some (none, _) => none
      | some (_, none) => none
      | some (some s, some e) =>
        let prefixText := text.take s
        let cn := caseNameSearch prefixText
        some { span := (s, e)
             , ctext := (text.drop s).take (e - s)
             , ctype := kindString c.kind
             , case_name := cn.map (fun sp => (prefixText.drop sp.1).take (sp.2 - sp.1))
             , case_name_span := cn })

/-- Spec-side validity of an oracle span: present offsets satisfy
`start < end <= n`.  The code never checks this, which is the gap in the
claim; the amended statement assumes it of the oracle. -/
def oracleSpanOK (n : Nat) (c : OracleCitation) : Bool :=
  match c.span with
  | some (some s, some e) => decide (s < e) && decide (e ≤ n)
  | _ => true

theorem searchNoLead_bound (g1 tl : BRE) (s : List Char) (x y : Nat)
    (h : searchNoLead g1 tl s = some (x, y)) : y ≤ s.length := by
  unfold searchNoLead at h
  obtain ⟨a, ha, h2⟩ := List.exists_of_findSome?_eq_some h
  obtain ⟨len, hlen, h3⟩ := List.exists_of_findSome?_eq_some h2
  rw [List.mem_range] at ha
  rw [List.mem_reverse, List.mem_range] at hlen
  split at h3
  · injection h3 with h4
    have : y = a + len := congrArg Prod.snd h4 |>.symm
    omega
  · cases h3

theorem searchWithLead_bound (alts : List BRE) (g1 tl : BRE) (s : List Char)
    (x y : Nat) (h : searchWithLead alts g1 tl s = some (x, y)) :
    y ≤ s.length := by
  unfold searchWithLead at h
  obtain ⟨a, ha, h2⟩ := List.exists_of_findSome?_eq_some h
  obtain ⟨altRE, _, h3⟩ := List.exists_of_findSome?_eq_some h2
  obtain ⟨d, hd, h4⟩ := List.exists_of_findSome?_eq_some h3
  rw [List.mem_range] at ha
  rw [List.mem_reverse, List.mem_range] at hd
  split at h4
  · obtain ⟨len, hlen, h5⟩ := List.exists_of_findSome?_eq_some h4
    rw [List.mem_reverse, List.mem_range] at hlen
    split at h5
    · injection h5 with h6
      have : y = a + d + len := congrArg Prod.snd h6 |>.symm
      omega
    · cases h5
  · cases h4

/-- Any case-name span returned by the pattern loop ends within the prefix
text it was searched in. -/
theorem caseNameSearch_bound (p : List Char) (x y : Nat)
    (h : caseNameSearch p = some (x, y)) : y ≤ p.length := by
  unfold caseNameSearch at h
  split at h
  · rename_i sp heq
    injection h with h1; subst h1
    exact searchNoLead_bound _ _ _ _ _ heq
  · split at h
    · rename_i sp heq
      injection h with h1; subst h1
      exact searchNoLead_bound _ _ _ _ _ heq
    · split at h
      · rename_i sp heq
        injection h with h1; subst h1
        exact searchNoLead_bound _ _ _ _ _ heq
      · exact searchWithLead_bound _ _ _ _ _ _ h

/-- C3 (counterexample): the claimed invariant `0 <= start < end <= len(text)`
is not enforced by `identify_citations`.  The code discards oracle spans that
are falsy or contain `None` (citation_filter.py:40) but never range-checks
the offsets, so an oracle span `(2, 1)` on the 3-character text `abc` is
passed through verbatim, violating `start < end`. -/
theorem C3_counterexample :
    (identify_citations [⟨some (some 2, some 1), OracleKind.full⟩]
        ['a', 'b', 'c']).map (fun entry => entry.span) = [(2, 1)] ∧
    ¬ ((2 : Nat) < 1) :=
  ⟨by decide, by decide⟩

/-- C3 (amended): if every span the oracle reports with both offsets present
satisfies `start < end <= len(text)`, then every entry returned by
`identify_citations` satisfies `0 <= start < end <= len(text)`, and whenever
its case-name span is present the case-name end offset is at most the
citation's start offset (the case name is found inside `text[:start]`, and
there is at most one per citation since a single search result is stored). -/
theorem C3_entry_invariants (oracle : List OracleCitation) (text : List Char)
    (hvalid : oracle.all (oracleSpanOK text.length) = true) :
    ∀ entry ∈ identify_citations oracle text,
      (entry.span.1 < entry.span.2 ∧ entry.span.2 ≤ text.length) ∧
      (∀ ns ne : Nat, entry.case_name_span = some (ns, ne) → ne ≤ entry.span.1) := by
  intro entry hmem
  unfold identify_citations at hmem
  split at hmem
  · cases hmem
  · rw [List.mem_filterMap] at hmem
    obtain ⟨c, hc, hfc⟩ := hmem
    rw [List.all_eq_true] at hvalid
    have hok := hvalid c hc
    unfold oracleSpanOK at hok
    obtain ⟨cspan, ckind⟩ := c
    rcases cspan with _ | ⟨_ | s, _ | e⟩
    · cases hfc
    · cases hfc
    · cases hfc
    · cases hfc
    · simp only [Bool.and_eq_true, decide_eq_true_eq] at hok
      injection hfc with hentry
      subst hentry
      refine ⟨⟨hok.1, hok.2⟩, ?_⟩
      intro ns ne hcn
      have hb := caseNameSearch_bound (text.take s) ns ne hcn
      have hlen : (text.take s).length = min s text.length := List.length_take s text
      show ne ≤ s
      omega

/-- Concrete oracle for the C3 witness: one full citation at offsets 10-13. -/
def witOracle : List OracleCitation := [⟨some (some 10, some 13), OracleKind.full⟩]

/-- Concrete 13-character text for the C3 witness, reading `Ab v. Cd, 123`;
the prefix before offset 10 holds the case name `Ab v. Cd`. -/
def witText : List Char :=
  ['A', 'b', ' ', 'v', '.', ' ', 'C', 'd', ',', ' ', '1', '2', '3']

/-- Witness for C3: the oracle-validity hypothesis holds at a concrete input
and the amended invariant follows there. -/
theorem C3_witness :
    witOracle.all (oracleSpanOK witText.length) = true ∧
    (∀ entry ∈ identify_citations witOracle witText,
      (entry.span.1 < entry.span.2 ∧ entry.span.2 ≤ witText.length) ∧
      (∀ ns ne : Nat, entry.case_name_span = some (ns, ne) → ne ≤ entry.span.1)) :=
  ⟨by decide, C3_entry_invariants witOracle witText (by decide)⟩

end LegalTTS
